import Mathlib

/-!
# BlockDB: a verified shallow embedding of the core storage engine

This file embeds the core of the BlockDB repository (an append-only,
tamper-evident key-value store) into Lean 4 and proves properties of the
embedded code.

Modelling conventions, fixed once here:

* A byte is modelled as a `Nat`; byte strings are `List Nat`.  Fixed-width
  integer encodings (`u32`/`u64`, big- and little-endian) are modelled
  byte-for-byte, with arithmetic taken modulo the width where the Rust code
  performs a truncating cast (`as u32`).
* SHA-256 is modelled as `sha256`, an injective function on byte strings.
  Every property proved below depends only on recomputation equality of the
  hash, never on any cryptographic property of the digest.
* `bincode` serialization of a `Record` is modelled as a concrete
  length-prefixed encoding (`serRecord`) together with a decoder
  (`deserRecord`); the round-trip lemma is proved, mirroring the fact that
  bincode decodes its own encodings.
* File system state (WAL file, SSTable files, chain file) is carried
  explicitly inside the state structures; a crash keeps the on-disk fields
  and discards the in-memory ones, exactly as dropping and re-creating the
  Rust structs does.
-/

namespace BlockDB

/-- SHA-256 stand-in: an injective function from byte strings to digests.
The Rust code (`sha2::Sha256`) is used only to compute and re-compute
digests of the same inputs, so any injective function is a faithful model
for the properties proved in this file. -/
def sha256 (data : List Nat) : List Nat :=
  1 :: data

/-- Big-endian 4-byte encoding of a `u32` value (`u32::to_be_bytes`).
The value is reduced modulo 2^32 exactly where the Rust code performs the
truncating cast `len as u32`. -/
def be32 (n : Nat) : List Nat :=
  [n % 2 ^ 32 / 2 ^ 24 % 256, n % 2 ^ 32 / 2 ^ 16 % 256, n % 2 ^ 32 / 2 ^ 8 % 256, n % 2 ^ 32 % 256]

/-- Big-endian decoding of a 4-byte `u32` (`u32::from_be_bytes`). -/
def deBE4 (bs : List Nat) : Nat :=
  bs.foldl (fun acc c => acc * 256 + c % 256) 0

/-- Big-endian 8-byte encoding of a `u64` value (`u64::to_be_bytes`), used
by record hashing and the SSTable footer. -/
def be64 (n : Nat) : List Nat :=
  [n / 2 ^ 56 % 256, n / 2 ^ 48 % 256, n / 2 ^ 40 % 256, n / 2 ^ 32 % 256,
   n / 2 ^ 24 % 256, n / 2 ^ 16 % 256, n / 2 ^ 8 % 256, n % 256]

/-- Big-endian decoding of an 8-byte `u64` (`u64::from_be_bytes`). -/
def deBE8 (bs : List Nat) : Nat :=
  bs.foldl (fun acc c => acc * 256 + c % 256) 0

/-! ## Records (`src/storage/mod.rs`)

`Record { key, value, timestamp, sequence_number, hash }`.  The content
hash computed by `BlockDB::put` is
`SHA-256(key || value || be64(timestamp) || be64(sequence_number))`. -/

structure Record where
  key : List Nat
  value : List Nat
  timestamp : Nat
  sequenceNumber : Nat
  hash : List Nat
deriving DecidableEq, Repr

/-- The record content hash computed in `BlockDB::put`. -/
def recordHash (key value : List Nat) (timestamp sequenceNumber : Nat) : List Nat :=
  sha256 (key ++ value ++ be64 timestamp ++ be64 sequenceNumber)

/-! ## bincode model

`bincode::serialize(record)` is modelled as a concrete length-prefixed
byte encoding: each `Vec<u8>` field is its 8-byte little-endian length
followed by its bytes, each `u64` field is 8 little-endian bytes.  The
decoder `deserRecord` parses the same layout; `deserRecord_serRecord` is
the round-trip fact used wherever the Rust code decodes bytes it
previously encoded. -/

/-- Little-endian 8-byte encoding of a `u64`. -/
def le64 (n : Nat) : List Nat :=
  [n % 256, n / 2 ^ 8 % 256, n / 2 ^ 16 % 256, n / 2 ^ 24 % 256,
   n / 2 ^ 32 % 256, n / 2 ^ 40 % 256, n / 2 ^ 48 % 256, n / 2 ^ 56 % 256]

/-- Little-endian decoding of 8 bytes. -/
def deLE8 (bs : List Nat) : Nat :=
  bs.foldr (fun c acc => c % 256 + acc * 256) 0

/-- Read exactly `n` bytes off the front of a byte string, returning them
and the tail; `none` models `read_exact` failing with `UnexpectedEof`. -/
def readN (n : Nat) (bs : List Nat) : Option (List Nat × List Nat) :=
  if n ≤ bs.length then some (bs.take n, bs.drop n) else none

/-- Serialize a byte-vector field: 8-byte little-endian length, then the bytes. -/
def serVec (v : List Nat) : List Nat :=
  le64 v.length ++ v

/-- Parse a byte-vector field. -/
def parseVec (bs : List Nat) : Option (List Nat × List Nat) :=
  match readN 8 bs with
  | none => none
  | some (lenBytes, r1) => readN (deLE8 lenBytes) r1

/-- Parse a `u64` field. -/
def parseU64 (bs : List Nat) : Option (Nat × List Nat) :=
  match readN 8 bs with
  | none => none
  | some (w, r) => some (deLE8 w, r)

/-- `bincode::serialize` for a `Record`: the five fields in declaration
order. -/
def serRecord (r : Record) : List Nat :=
  serVec r.key ++ serVec r.value ++ le64 r.timestamp ++ le64 r.sequenceNumber ++ serVec r.hash

/-- `bincode::deserialize::<Record>` over a byte slice: parse the five
fields in declaration order (a reader-style decode; trailing bytes are
left unconsumed, and any short or malformed input yields `none`). -/
def deserRecord (bs : List Nat) : Option Record :=
  match parseVec bs with
  | none => none
  | some (key, r1) =>
    match parseVec r1 with
    | none => none
    | some (value, r2) =>
      match parseU64 r2 with
      | none => none
      | some (timestamp, r3) =>
        match parseU64 r3 with
        | none => none
        | some (sequenceNumber, r4) =>
          match parseVec r4 with
          | none => none
          | some (hash, _) => some ⟨key, value, timestamp, sequenceNumber, hash⟩

/-- Field bounds under which the fixed-width encodings are lossless: every
length and `u64` field fits in 64 bits (always true of the Rust values,
whose types impose these bounds). -/
def RecordBounded (r : Record) : Prop :=
  r.key.length < 2 ^ 64 ∧ r.value.length < 2 ^ 64 ∧ r.timestamp < 2 ^ 64 ∧
    r.sequenceNumber < 2 ^ 64 ∧ r.hash.length < 2 ^ 64

instance (r : Record) : Decidable (RecordBounded r) := by
  unfold RecordBounded
  infer_instance

/-! ## Errors (`src/error.rs`)

`BlockDBError`, restricted to the variants the modelled code paths
construct.  The carried strings / source errors are dropped: no modelled
behaviour inspects them. -/

inductive DBError where
  | io
  | serialization
  | duplicateKey
  | storage
deriving DecidableEq, Repr

/-! ## Write-ahead log (`src/storage/wal.rs`)

The WAL file is a byte string of framed records
`[ size:u32 BE || bincode(record) ]*`.  `append` writes a frame whose
header is the truncating cast `serialized.len() as u32`.  `recover` loops:
`read_exact` of the 4-byte header breaks out of the loop on
`UnexpectedEof` (a short read of the header is end-of-log); `read_exact`
of the body propagates its error; `bincode::deserialize` propagates its
error. -/

/-- One WAL frame as written by `WriteAheadLog::append`. -/
def walFrame (r : Record) : List Nat :=
  be32 (serRecord r).length ++ serRecord r

/-- A WAL file holding exactly the frames of `rs`, in order. -/
def walFrames (rs : List Record) : List Nat :=
  (rs.map walFrame).flatten

/-- The recovery loop of `WriteAheadLog::recover`, with explicit fuel.
One unit of fuel is spent per frame; since a frame consumes at least its
4 header bytes, `bs.length` units always suffice (`walRecover` passes
that, and `walRecoverAux_fuel` shows any sufficient fuel agrees), so the
fuel is a termination device only, not a behaviour change. -/
def walRecoverAux : Nat → List Nat → Except DBError (List Record)
  | 0, _ => .ok []
  | fuel + 1, bs =>
    if bs.length < 4 then .ok []
    else
      let size := deBE4 (bs.take 4)
      let rest := bs.drop 4
      if rest.length < size then .error .io
      else
        match deserRecord (rest.take size) with
        | none => .error .serialization
        | some r =>
          match walRecoverAux fuel (rest.drop size) with
          | .error e => .error e
          | .ok rs => .ok (r :: rs)

/-- `WriteAheadLog::recover` over the WAL file's bytes. -/
def walRecover (bs : List Nat) : Except DBError (List Record) :=
  walRecoverAux bs.length bs

/-- Records whose frames behave losslessly: the record round-trips through
bincode and its encoded size fits the `u32` frame header (true of every
record the Rust code writes, by the field types involved). -/
def FrameOk (r : Record) : Prop :=
  RecordBounded r ∧ (serRecord r).length < 2 ^ 32

instance (r : Record) : Decidable (FrameOk r) := by
  unfold FrameOk
  infer_instance

/-! ## MemTable (`src/storage/memtable.rs`)

`BTreeMap<Vec<u8>, Record>` is modelled as an association list kept in
strictly increasing key order (the map's iteration order); `insert`
replaces any existing entry for the key.  `size` is the sum of
`calculate_record_size` over the entries — the Rust code maintains this
sum incrementally. -/

/-- Lexicographic strict order on byte strings (`Ord for Vec<u8>`). -/
def lexLt : List Nat → List Nat → Bool
  | [], [] => false
  | [], _ :: _ => true
  | _ :: _, [] => false
  | a :: as, b :: bs => if a < b then true else if b < a then false else lexLt as bs

/-- First-match association-list lookup (`BTreeMap::get` on a map with
unique keys). -/
def alookup {α : Type} (k : List Nat) : List (List Nat × α) → Option α
  | [] => none
  | (k', v) :: rest => if k' = k then some v else alookup k rest

/-- The MemTable: entries in key order. -/
abbrev MemTable := List (List Nat × Record)

/-- `MemTable::new`. -/
def mtNew : MemTable := []

/-- `MemTable::insert`: keyed by `record.key`, replacing any existing
entry, keeping key order. -/
def mtInsert (r : Record) : MemTable → MemTable
  | [] => [(r.key, r)]
  | (k, v) :: rest =>
    if lexLt r.key k then (r.key, r) :: (k, v) :: rest
    else if r.key = k then (r.key, r) :: rest
    else (k, v) :: mtInsert r rest

/-- `MemTable::get`. -/
def mtGet (mt : MemTable) (k : List Nat) : Option Record :=
  alookup k mt

/-- `MemTable::calculate_record_size`: key + value + hash bytes plus
8 (timestamp) + 8 (sequence number) + 32 (overhead estimate). -/
def recordSize (r : Record) : Nat :=
  r.key.length + r.value.length + r.hash.length + 8 + 8 + 32

/-- `MemTable::size`: the running sum the Rust code maintains. -/
def mtSize (mt : MemTable) : Nat :=
  (mt.map fun p => recordSize p.2).sum

/-- `MemTable::is_empty`. -/
def mtIsEmpty (mt : MemTable) : Bool :=
  mt.isEmpty

/-! ## SSTable (`src/storage/sstable.rs`)

File layout: `[ size:u32 BE || bincode(record) ]*` in memtable iteration
order, then the bincoded index (`BTreeMap<Vec<u8>, IndexEntry>`), then a
16-byte footer `index_offset:u64 BE || index_size:u64 BE`. -/

structure IndexEntry where
  key : List Nat
  offset : Nat
  size : Nat
deriving DecidableEq, Repr

/-- Little-endian 4-byte encoding of a `u32` (bincode's `u32` layout). -/
def le32 (n : Nat) : List Nat :=
  [n % 256, n / 2 ^ 8 % 256, n / 2 ^ 16 % 256, n / 2 ^ 24 % 256]

/-- Little-endian decoding of 4 bytes. -/
def deLE4 (bs : List Nat) : Nat :=
  bs.foldr (fun c acc => c % 256 + acc * 256) 0

/-- `bincode::serialize` of an `IndexEntry`: the three fields in order. -/
def serIndexEntry (e : IndexEntry) : List Nat :=
  serVec e.key ++ le64 e.offset ++ le32 e.size

/-- Parse a `u32` field. -/
def parseU32 (bs : List Nat) : Option (Nat × List Nat) :=
  match readN 4 bs with
  | none => none
  | some (w, r) => some (deLE4 w, r)

/-- Parse one map entry: the `Vec<u8>` key, then the `IndexEntry` value. -/
def parseIndexPair (bs : List Nat) : Option ((List Nat × IndexEntry) × List Nat) :=
  match parseVec bs with
  | none => none
  | some (k, r1) =>
    match parseVec r1 with
    | none => none
    | some (ekey, r2) =>
      match parseU64 r2 with
      | none => none
      | some (offset, r3) =>
        match parseU32 r3 with
        | none => none
        | some (size, r4) => some ((k, ⟨ekey, offset, size⟩), r4)

/-- Parse `n` map entries in sequence. -/
def parseIndexPairs : Nat → List Nat → Option (List (List Nat × IndexEntry) × List Nat)
  | 0, bs => some ([], bs)
  | n + 1, bs =>
    match parseIndexPair bs with
    | none => none
    | some (p, rest) =>
      match parseIndexPairs n rest with
      | none => none
      | some (ps, rest') => some (p :: ps, rest')

/-- `bincode::serialize` of the index map: entry count as `u64`, then the
key/value pairs in iteration (key) order. -/
def serIndex (entries : List (List Nat × IndexEntry)) : List Nat :=
  le64 entries.length ++ (entries.map fun p => serVec p.1 ++ serIndexEntry p.2).flatten

/-- `bincode::deserialize` of the index map over a byte slice. -/
def deserIndex (bs : List Nat) : Option (List (List Nat × IndexEntry)) :=
  match parseU64 bs with
  | none => none
  | some (count, rest) =>
    match parseIndexPairs count rest with
    | none => none
    | some (entries, _) => some entries

/-- Field bounds under which an index entry serializes losslessly. -/
def IndexEntryBounded (p : List Nat × IndexEntry) : Prop :=
  p.1.length < 2 ^ 64 ∧ p.2.key.length < 2 ^ 64 ∧ p.2.offset < 2 ^ 64 ∧ p.2.size < 2 ^ 32

instance (p : List Nat × IndexEntry) : Decidable (IndexEntryBounded p) := by
  unfold IndexEntryBounded
  infer_instance

/-- The in-memory `SSTable` value: the file's bytes and the loaded index
(the Rust struct holds the path and an open handle onto the same bytes). -/
structure SSTable where
  file : List Nat
  index : List (List Nat × IndexEntry)
deriving DecidableEq, Repr

/-- The record-emitting loop of `SSTable::create_from_memtable`: iterate
the MemTable in key order, emit `size:u32 BE || bincode(record)` frames
while recording `(key → { offset, size })`; `size` is the truncating cast
`serialized.len() as u32`, `offset` advances by `4 + serialized.len()`. -/
def buildData : Nat → List (List Nat × Record) → List Nat × List (List Nat × IndexEntry)
  | _, [] => ([], [])
  | offset, (k, r) :: rest =>
    let payload := serRecord r
    let (d, ix) := buildData (offset + (4 + payload.length)) rest
    (be32 payload.length ++ (payload ++ d),
     (k, ⟨k, offset, payload.length % 2 ^ 32⟩) :: ix)

/-- `SSTable::create_from_memtable`: data section, bincoded index, then
the footer `index_offset:u64 BE || index_size:u64 BE`. -/
def createFromMemtable (mt : MemTable) : SSTable :=
  let data := (buildData 0 mt).1
  let index := (buildData 0 mt).2
  let indexData := serIndex index
  { file := data ++ (indexData ++ (be64 data.length ++ be64 indexData.length)),
    index := index }

/-- `SSTable::open`: read the 16-byte footer, seek to the index, load it.
Any I/O or decode failure is `none` (the Rust code surfaces it as `Err`;
no modelled caller distinguishes the error payloads). -/
def sstOpen (file : List Nat) : Option SSTable :=
  if file.length < 16 then none
  else
    let footer := file.drop (file.length - 16)
    let indexOffset := deBE8 (footer.take 8)
    let indexSize := deBE8 (footer.drop 8)
    if indexOffset + indexSize ≤ file.length then
      match deserIndex ((file.drop indexOffset).take indexSize) with
      | none => none
      | some ix => some { file := file, index := ix }
    else none

/-- `SSTable::get`: look the key up in the index; on a hit seek to the
entry's offset, read the 4-byte size header, read that many bytes and
decode them.  A read or decode failure is `none` (the Rust code surfaces
it as `Err`; `sstGet_createFromMemtable` shows it never happens on a file
this code wrote). -/
def sstGet (sst : SSTable) (k : List Nat) : Option Record :=
  match alookup k sst.index with
  | none => none
  | some e =>
    if e.offset + 4 ≤ sst.file.length then
      let size := deBE4 ((sst.file.drop e.offset).take 4)
      if e.offset + 4 + size ≤ sst.file.length then
        deserRecord ((sst.file.drop (e.offset + 4)).take size)
      else none
    else none

/-- `SSTable::contains_key`. -/
def sstContainsKey (sst : SSTable) (k : List Nat) : Bool :=
  (alookup k sst.index).isSome

/-- The per-memtable bounds under which `create_from_memtable` writes a
losslessly decodable file: every record round-trips through bincode, every
frame size fits the `u32` header, and the whole data and index sections
fit `u64` offsets.  All hold of any file the Rust code can physically
write. -/
def CreateBounded (mt : MemTable) : Prop :=
  (∀ p ∈ mt, p.1.length < 2 ^ 64 ∧ RecordBounded p.2 ∧ (serRecord p.2).length < 2 ^ 32) ∧
  mt.length < 2 ^ 64 ∧
  (buildData 0 mt).1.length < 2 ^ 64 ∧
  (serIndex (buildData 0 mt).2).length < 2 ^ 64

instance (mt : MemTable) : Decidable (CreateBounded mt) := by
  unfold CreateBounded
  infer_instance

/-! ## Blockchain ledger (`src/storage/blockchain.rs`)

A `Block` is hashed over `be64(index) || be64(timestamp) || previous_hash
|| merkle_root || be64(nonce) || concat(record.hash)` (the stored `hash`
field itself is not an input).  The Merkle root pairs leaf hashes level by
level, duplicating the last hash of an odd level. -/

structure Block where
  index : Nat
  timestamp : Nat
  previousHash : List Nat
  merkleRoot : List Nat
  records : List Record
  hash : List Nat
  nonce : Nat
deriving DecidableEq, Repr

/-- `Block::calculate_hash`. -/
def calculateHash (b : Block) : List Nat :=
  sha256 (be64 b.index ++ be64 b.timestamp ++ b.previousHash ++ b.merkleRoot ++
    be64 b.nonce ++ (b.records.map Record.hash).flatten)

/-- One level of the Merkle construction (`hashes.chunks(2)`): hash each
pair, duplicating a trailing odd element. -/
def pairUp : List (List Nat) → List (List Nat)
  | [] => []
  | [a] => [sha256 (a ++ a)]
  | a :: b :: rest => sha256 (a ++ b) :: pairUp rest

/-- The `while hashes.len() > 1` loop of `calculate_merkle_root`, with
explicit fuel.  Each `pairUp` at least halves a list of length ≥ 2, so
the initial leaf count (what `calculateMerkleRoot` passes) always
suffices; the fuel is a termination device only. -/
def merkleLoop : Nat → List (List Nat) → List (List Nat)
  | 0, hs => hs
  | fuel + 1, hs => if hs.length > 1 then merkleLoop fuel (pairUp hs) else hs

/-- `Block::calculate_merkle_root`. -/
def calculateMerkleRoot (records : List Record) : List Nat :=
  if records.isEmpty then List.replicate 32 0
  else
    (merkleLoop records.length (records.map Record.hash)).headD (List.replicate 32 0)

/-- `Block::new`: compute the Merkle root, then fill in the hash over the
other fields (`nonce = 0`; the chain never mines). -/
def Block.new (index : Nat) (previousHash : List Nat) (records : List Record)
    (now : Nat) : Block :=
  let base : Block :=
    { index := index, timestamp := now, previousHash := previousHash,
      merkleRoot := calculateMerkleRoot records, records := records,
      hash := [], nonce := 0 }
  { base with hash := calculateHash base }

/-- `Block::verify_integrity`: the stored hash and Merkle root match the
recomputed ones. -/
def Block.verifyIntegrity (b : Block) : Bool :=
  b.hash == calculateHash b && b.merkleRoot == calculateMerkleRoot b.records

/-- The `for i in 1..len` loop of `verify_chain`, walking consecutive
pairs: each later block must pass `verify_integrity`, link to the
previous block's stored hash, and carry the previous index plus one. -/
def verifyChainAux : Block → List Block → Bool
  | _, [] => true
  | prev, b :: rest =>
    b.verifyIntegrity && b.previousHash == prev.hash &&
      b.index == prev.index + 1 && verifyChainAux b rest

/-- `BlockChain::verify_chain` (an empty chain verifies trivially; block 0
is never checked on its own). -/
def verifyChain : List Block → Bool
  | [] => true
  | b :: rest => verifyChainAux b rest

/-- The ledger state.  `diskBlocks` is the contents of `blockchain.dat`
(the whole chain is rewritten on every save). -/
structure BlockChain where
  blocks : List Block
  pendingRecords : List Record
  batchSize : Nat
  diskBlocks : List Block
deriving DecidableEq, Repr

/-- `BlockChain::new`: load the chain file; if no blocks were loaded,
create and persist a genesis block.  The batch size is hardcoded to 1000
— the constructor takes only `data_dir`, and `config.blockchain_batch_size`
is never passed down. -/
def chainNew (disk : List Block) (now : Nat) : BlockChain :=
  if disk.isEmpty then
    let genesis := Block.new 0 (List.replicate 32 0) [] now
    { blocks := [genesis], pendingRecords := [], batchSize := 1000,
      diskBlocks := [genesis] }
  else
    { blocks := disk, pendingRecords := [], batchSize := 1000, diskBlocks := disk }

/-- `BlockChain::create_block`: drain the pending queue into a new block
linked to the last block, append it, and rewrite the chain file.  (On an
empty chain the Rust code would panic on `last().unwrap()`; every
reachable chain holds at least the genesis block, so the default written
here is never read.) -/
def createBlock (c : BlockChain) (now : Nat) : BlockChain :=
  if c.pendingRecords.isEmpty then c
  else
    let previousHash := (c.blocks.getLast?.map Block.hash).getD (List.replicate 32 0)
    let block := Block.new c.blocks.length previousHash c.pendingRecords now
    { c with
      blocks := c.blocks ++ [block]
      pendingRecords := []
      diskBlocks := c.blocks ++ [block] }

/-- `BlockChain::add_record`: enqueue; seal a block once the queue length
reaches the batch size. -/
def addRecord (c : BlockChain) (r : Record) (now : Nat) : BlockChain :=
  let c' := { c with pendingRecords := c.pendingRecords ++ [r] }
  if c'.batchSize ≤ c'.pendingRecords.length then createBlock c' now else c'

/-- `BlockChain::force_create_block`. -/
def forceCreateBlock (c : BlockChain) (now : Nat) : BlockChain :=
  createBlock c now

/-- `BlockChain::clear`: reset to a fresh genesis block and persist. -/
def chainClear (c : BlockChain) (now : Nat) : BlockChain :=
  let genesis := Block.new 0 (List.replicate 32 0) [] now
  { c with blocks := [genesis], pendingRecords := [], diskBlocks := [genesis] }

/-! ## Storage engine (`src/storage/mod.rs`)

`BlockDB` owns the MemTable, the WAL, the SSTable vector, the blockchain
and the sequence counter.  Only the two configuration fields the modelled
code paths read are kept (`data_dir`, `wal_sync_interval_ms`,
`compaction_threshold` and the auth fields do not influence any modelled
behaviour).  The WAL file is carried as its logical record list: `append`
writes `walFrame r` and `recover` of a frames-only file returns exactly
the records (`walRecover_append_frames`/`walRecover_short`), so the byte
level and the record list coincide on every file this code writes. -/

structure BlockDBConfig where
  memtableSizeLimit : Nat
  blockchainBatchSize : Nat
deriving DecidableEq, Repr

structure DBState where
  config : BlockDBConfig
  memtable : MemTable
  walRecords : List Record
  sstables : List SSTable
  chain : BlockChain
  seqCounter : Nat
deriving DecidableEq, Repr

/-- `BlockDB::recover_from_wal`: replay the WAL into the MemTable and set
the sequence counter to the running maximum (both only when any records
were recovered; replaying nothing leaves the fresh state). -/
def recoverFromWal (s : DBState) : DBState :=
  if s.walRecords.isEmpty then s
  else
    { s with
      memtable := s.walRecords.foldl (fun mt r => mtInsert r mt) s.memtable
      seqCounter := s.walRecords.foldl (fun m r => max m r.sequenceNumber) 0 }

/-- `BlockDB::new`: fresh MemTable, empty SSTable vector (existing
`.sst` files are never reopened), WAL opened on the existing file, chain
loaded from the chain file, counter zeroed — then WAL recovery. -/
def dbNew (cfg : BlockDBConfig) (walDisk : List Record) (chainDisk : List Block)
    (now : Nat) : DBState :=
  recoverFromWal
    { config := cfg
      memtable := mtNew
      walRecords := walDisk
      sstables := []
      chain := chainNew chainDisk now
      seqCounter := 0 }

/-- Opening a database on an empty `data_dir`. -/
def initState (cfg : BlockDBConfig) (now : Nat) : DBState :=
  dbNew cfg [] [] now

/-- First hit over a list of SSTables (the engine iterates the vector
newest-first, so callers pass `s.sstables.reverse`). -/
def sstFind : List SSTable → List Nat → Option Record
  | [], _ => none
  | sst :: rest, k =>
    match sstGet sst k with
    | some r => some r
    | none => sstFind rest k

/-- The record `get`/`key_exists` resolve for a key: MemTable first, then
SSTables newest to oldest, first hit wins. -/
def dbGetRecord (s : DBState) (k : List Nat) : Option Record :=
  match mtGet s.memtable k with
  | some r => some r
  | none => sstFind s.sstables.reverse k

/-- `BlockDB::get`. -/
def dbGet (s : DBState) (k : List Nat) : Option (List Nat) :=
  (dbGetRecord s k).map Record.value

/-- `BlockDB::key_exists`: the key is in the MemTable or in some SSTable
(the Rust code returns at the first hit; the boolean agrees). -/
def keyExists (s : DBState) (k : List Nat) : Bool :=
  (dbGetRecord s k).isSome

/-- `BlockDB::flush_memtable`: swap in an empty MemTable and append the
old one, written out as an SSTable, to the vector. -/
def flushMemtable (s : DBState) : DBState :=
  { s with
    memtable := mtNew
    sstables := s.sstables ++ [createFromMemtable s.memtable] }

/-- `BlockDB::put`.  `now` is the wall clock (`SystemTime::now`), also
used for any block sealed during the call; `walOk` is whether the WAL
append's I/O succeeds (the environment's choice, not the program's).
Order as in the source: append-only guard, then timestamp / sequence
allocation (the counter is incremented before the WAL write and is not
rolled back on failure), then WAL append, then MemTable insert with the
size-triggered flush, then the ledger enqueue. -/
def putStep (s : DBState) (k v : List Nat) (now : Nat) (walOk : Bool) :
    Except DBError Unit × DBState :=
  if keyExists s k then (.error .duplicateKey, s)
  else
    let seq := s.seqCounter + 1
    let r : Record := ⟨k, v, now, seq, recordHash k v now seq⟩
    let s₁ := { s with seqCounter := seq }
    if !walOk then (.error .io, s₁)
    else
      let s₂ := { s₁ with
        walRecords := s₁.walRecords ++ [r]
        memtable := mtInsert r s₁.memtable }
      let s₃ := if s.config.memtableSizeLimit < mtSize s₂.memtable
        then flushMemtable s₂ else s₂
      (.ok (), { s₃ with chain := addRecord s₃.chain r now })

/-- `BlockDB::force_flush_memtable`: flush only a non-empty MemTable. -/
def forceFlushStep (s : DBState) : DBState :=
  if mtIsEmpty s.memtable then s else flushMemtable s

/-- `BlockDB::flush_all`: clear the MemTable, truncate the WAL, drop and
delete every SSTable, reset the ledger to genesis, zero the counter. -/
def flushAllStep (s : DBState) (now : Nat) : DBState :=
  { s with
    memtable := mtNew
    walRecords := []
    sstables := []
    chain := chainClear s.chain now
    seqCounter := 0 }

/-- Crash and reopen on the same `data_dir`: in-memory state is lost, the
WAL file and the chain file survive, `.sst` files survive on disk but the
fresh `BlockDB` never reopens them, and pending ledger records are gone. -/
def crashRestart (s : DBState) (now : Nat) : DBState :=
  dbNew s.config s.walRecords s.chain.diskBlocks now

/-- One engine-level operation of a single-node history. -/
inductive DBOp where
  | putOp (k v : List Nat) (now : Nat) (walOk : Bool)
  | forceFlushOp
  | flushAllOp (now : Nat)
  | crashRestartOp (now : Nat)
deriving DecidableEq, Repr

def stepOp : DBOp → DBState → DBState
  | .putOp k v now walOk, s => (putStep s k v now walOk).2
  | .forceFlushOp, s => forceFlushStep s
  | .flushAllOp now, s => flushAllStep s now
  | .crashRestartOp now, s => crashRestart s now

def runOps : List DBOp → DBState → DBState
  | [], s => s
  | op :: rest, s => runOps rest (stepOp op s)

/-- The sequence number an operation assigns, when it is a successful
`put` (which uses `seqCounter + 1`). -/
def stepSeqs : DBOp → DBState → List Nat
  | .putOp k v now walOk, s =>
    match (putStep s k v now walOk).1 with
    | .ok _ => [s.seqCounter + 1]
    | .error _ => []
  | _, _ => []

/-- The sequence numbers assigned by the successful puts of a history, in
order. -/
def runTrace : List DBOp → DBState → List Nat
  | [], _ => []
  | op :: rest, s => stepSeqs op s ++ runTrace rest (stepOp op s)

def isFlushAll : DBOp → Bool
  | .flushAllOp _ => true
  | _ => false

/-! ## Raft vote handling (`src/consensus/raft.rs`, `src/consensus/mod.rs`)

Only the state touched by `handle_vote_response` is modelled: the node's
`ConsensusState` and the cluster configuration (`majority` counts this
node plus its peers).  Message sending, timers and the log are outside
the function's state effects. -/

structure ClusterConfig where
  nodeId : Nat
  peers : List Nat
deriving DecidableEq, Repr

/-- `ClusterConfig::cluster_size`: the peers plus this node. -/
def clusterSize (cfg : ClusterConfig) : Nat :=
  cfg.peers.length + 1

/-- `ClusterConfig::majority` = `cluster_size / 2 + 1`. -/
def majority (cfg : ClusterConfig) : Nat :=
  clusterSize cfg / 2 + 1

inductive RaftState where
  | follower
  | candidate
  | leader
deriving DecidableEq, Repr

structure ConsensusState where
  state : RaftState
  currentTerm : Nat
  votedFor : Option Nat
  leaderId : Option Nat
  lastHeartbeat : Nat
deriving DecidableEq, Repr

/-- `ConsensusState::become_leader`. -/
def becomeLeader (s : ConsensusState) (nodeId : Nat) (now : Nat) : ConsensusState :=
  { s with
    state := .leader
    leaderId := some nodeId
    votedFor := none
    lastHeartbeat := now }

/-- `RaftNode::handle_vote_response`: step down on a newer term;
otherwise, as a candidate in the same term receiving a granted vote,
count votes — the source hardcodes `votes_received = 1` (with a TODO to
track actual votes) — and become leader only if that count reaches the
majority. -/
def handleVoteResponse (cfg : ClusterConfig) (s : ConsensusState) (term : Nat)
    (voteGranted : Bool) (now : Nat) : ConsensusState :=
  if s.currentTerm < term then
    { s with
      currentTerm := term
      state := .follower
      votedFor := none }
  else if s.state = .candidate && term == s.currentTerm && voteGranted then
    let votesReceived := 1
    if majority cfg ≤ votesReceived then becomeLeader s cfg.nodeId now
    else s
  else s

/-! ## Transactions (`src/transaction/mod.rs`)

The transaction manager owns the active-transaction table, the lock
manager and the transaction log.  It holds no reference to the storage
engine: `execute_operation` buffers writes in the transaction's write set
(its read path carries a TODO in place of a storage read) and
`commit_transaction` transitions state, logs, releases locks and drops
the transaction.  The lock manager is modelled by its held-locks table
with the uncontended grant path; the modelled scenarios never contend. -/

/-- Generic key/value insert-or-replace (a `HashMap::insert`). -/
def kvInsert {α : Type} (k : List Nat) (v : α) :
    List (List Nat × α) → List (List Nat × α)
  | [] => [(k, v)]
  | (k', v') :: rest =>
    if k' = k then (k, v) :: rest else (k', v') :: kvInsert k v rest

inductive TxState where
  | active
  | preparing
  | committed
  | aborted
deriving DecidableEq, Repr

inductive TxOperation where
  | putTx (key value : List Nat)
  | getTx (key : List Nat)
  | deleteTx (key : List Nat)
deriving DecidableEq, Repr

structure Transaction where
  id : Nat
  state : TxState
  operations : List TxOperation
  readSet : List (List Nat)
  writeSet : List (List Nat × List Nat)
  startTime : Nat
  timeout : Nat
deriving DecidableEq, Repr

/-- `Transaction::new`. -/
def txNew (id now timeout : Nat) : Transaction :=
  { id := id, state := .active, operations := [], readSet := [],
    writeSet := [], startTime := now, timeout := timeout }

/-- `Transaction::add_operation`: a `Get` joins the read set, a `Put`
buffers into the write set, a `Delete` buffers an empty value; the
operation is recorded. -/
def txAddOperation (tx : Transaction) (op : TxOperation) : Transaction :=
  let tx' := match op with
    | .getTx k => { tx with readSet := k :: tx.readSet }
    | .putTx k v => { tx with writeSet := kvInsert k v tx.writeSet }
    | .deleteTx k => { tx with writeSet := kvInsert k [] tx.writeSet }
  { tx' with operations := tx'.operations ++ [op] }

/-- `Transaction::is_expired`. -/
def txIsExpired (tx : Transaction) (now : Nat) : Bool :=
  tx.timeout < now - tx.startTime

/-- `Transaction::can_commit`: `Active` and not expired. -/
def txCanCommit (tx : Transaction) (now : Nat) : Bool :=
  tx.state == .active && !txIsExpired tx now

/-- `Transaction::prepare`. -/
def txPrepare (tx : Transaction) (now : Nat) : Except DBError Transaction :=
  if txCanCommit tx now then .ok { tx with state := .preparing }
  else .error .storage

/-- `Transaction::commit`: requires `Preparing`; transitions the
transaction's own state only. -/
def txCommit (tx : Transaction) : Except DBError Transaction :=
  if tx.state == .preparing then .ok { tx with state := .committed }
  else .error .storage

inductive TxLogKind where
  | beginTx
  | prepareTx
  | commitTx
  | abortTx
deriving DecidableEq, Repr

structure TxLogEntry where
  kind : TxLogKind
  txId : Nat
  timestamp : Nat
deriving DecidableEq, Repr

/-- Held locks: key → (exclusive?, holder transaction ids). -/
structure LockManager where
  locks : List (List Nat × (Bool × List Nat))
deriving DecidableEq, Repr

/-- `LockManager::acquire_write_lock`, uncontended path: grant when the
key is free or already held by this transaction; `none` stands for the
blocking wait (never reached by the modelled scenarios). -/
def acquireWriteLock (lm : LockManager) (k : List Nat) (txId : Nat) :
    Option LockManager :=
  match alookup k lm.locks with
  | none => some { locks := kvInsert k (true, [txId]) lm.locks }
  | some (_, holders) => if holders = [txId] then some lm else none

/-- `LockManager::acquire_read_lock`, uncontended path. -/
def acquireReadLock (lm : LockManager) (k : List Nat) (txId : Nat) :
    Option LockManager :=
  match alookup k lm.locks with
  | none => some { locks := kvInsert k (false, [txId]) lm.locks }
  | some (exclusive, holders) =>
    if holders = [txId] then some lm
    else if exclusive then none
    else some { locks := kvInsert k (false, txId :: holders) lm.locks }

/-- `LockManager::release_all_locks`. -/
def releaseAllLocks (lm : LockManager) (txId : Nat) : LockManager :=
  { locks := (lm.locks.map fun p =>
      (p.1, (p.2.1, p.2.2.filter (· ≠ txId)))).filter fun p => p.2.2 ≠ [] }

/-- Remove a transaction from the active table. -/
def removeTx (txId : Nat) :
    List (Nat × Transaction) → List (Nat × Transaction) :=
  List.filter fun p => p.1 ≠ txId

/-- Look a transaction up in the active table. -/
def findTx (txId : Nat) : List (Nat × Transaction) → Option Transaction
  | [] => none
  | (id, tx) :: rest => if id = txId then some tx else findTx txId rest

structure TMState where
  activeTransactions : List (Nat × Transaction)
  lockManager : LockManager
  txLog : List TxLogEntry
deriving DecidableEq, Repr

/-- `TransactionManager::new`. -/
def tmNew : TMState :=
  { activeTransactions := [], lockManager := ⟨[]⟩, txLog := [] }

/-- `TransactionManager::begin_transaction_with_timeout`. -/
def tmBegin (tm : TMState) (txId now timeout : Nat) : TMState :=
  { tm with
    activeTransactions := tm.activeTransactions ++ [(txId, txNew txId now timeout)]
    txLog := tm.txLog ++ [⟨.beginTx, txId, now⟩] }

/-- Replace a transaction in the active table. -/
def kvNatUpdate (txId : Nat) (tx : Transaction) :
    List (Nat × Transaction) → List (Nat × Transaction)
  | [] => []
  | (id, old) :: rest =>
    if id = txId then (id, tx) :: rest else (id, old) :: kvNatUpdate txId tx rest

/-- `TransactionManager::execute_operation`: find the live transaction,
take the key's lock, record the operation; a `Get` answers from the write
set (read-your-writes) or `None` — the storage-layer read is a TODO in
the source and never happens. -/
def tmExecute (tm : TMState) (txId : Nat) (op : TxOperation) (now : Nat) :
    Except DBError (TMState × Option (List Nat)) :=
  match findTx txId tm.activeTransactions with
  | none => .error .storage
  | some tx =>
    if !txCanCommit tx now then .error .storage
    else
      let lockRes := match op with
        | .getTx k => acquireReadLock tm.lockManager k txId
        | .putTx k _ => acquireWriteLock tm.lockManager k txId
        | .deleteTx k => acquireWriteLock tm.lockManager k txId
      match lockRes with
      | none => .error .storage
      | some lm =>
        let tx' := txAddOperation tx op
        let tm' := { tm with
          activeTransactions := kvNatUpdate txId tx' tm.activeTransactions
          lockManager := lm }
        match op with
        | .getTx k => .ok (tm', alookup k tx'.writeSet)
        | _ => .ok (tm', none)

/-- `TransactionManager::prepare_transaction`. -/
def tmPrepare (tm : TMState) (txId now : Nat) : Except DBError TMState :=
  match findTx txId tm.activeTransactions with
  | none => .error .storage
  | some tx =>
    match txPrepare tx now with
    | .error e => .error e
    | .ok tx' =>
      .ok { tm with
        activeTransactions := kvNatUpdate txId tx' tm.activeTransactions
        txLog := tm.txLog ++ [⟨.prepareTx, txId, now⟩] }

/-- `TransactionManager::commit_transaction`: require `Preparing`, log
`Commit`, release this transaction's locks, remove it from the active
table.  No storage-engine call occurs anywhere in this path. -/
def tmCommit (tm : TMState) (txId now : Nat) : Except DBError TMState :=
  match findTx txId tm.activeTransactions with
  | none => .error .storage
  | some tx =>
    match txCommit tx with
    | .error e => .error e
    | .ok _ =>
      .ok { tm with
        activeTransactions := removeTx txId tm.activeTransactions
        lockManager := releaseAllLocks tm.lockManager txId
        txLog := tm.txLog ++ [⟨.commitTx, txId, now⟩] }

/-- The single-node commit path of
`DistributedBlockDB::commit_transaction` (`src/distributed.rs` lines
186–189): `prepare_transaction` then `commit_transaction`.  The storage
engine is threaded through untouched — neither call receives it. -/
def singleNodeCommit (tm : TMState) (db : DBState) (txId now : Nat) :
    Except DBError (TMState × DBState) :=
  match tmPrepare tm txId now with
  | .error e => .error e
  | .ok tm' =>
    match tmCommit tm' txId now with
    | .error e => .error e
    | .ok tm'' => .ok (tm'', db)

/-! ## Chain verification lemmas -/

/-- Out-of-range default for positional block access (never selected at
the indices the statements quantify over). -/
def dummyBlock : Block :=
  { index := 0, timestamp := 0, previousHash := [], merkleRoot := [],
    records := [], hash := [], nonce := 0 }

/-- The block at position `i` of a chain. -/
def blockAt (bs : List Block) (i : Nat) : Block :=
  bs.getD i dummyBlock

/-- A sample record for the concrete chains below. -/
def sampleRecord : Record :=
  { key := [10], value := [20], timestamp := 3, sequenceNumber := 1,
    hash := recordHash [10] [20] 3 1 }

/-- A concrete two-block chain: genesis plus one sealed block. -/
def sampleGenesis : Block :=
  Block.new 0 (List.replicate 32 0) [] 5

def sampleBlock1 : Block :=
  Block.new 1 sampleGenesis.hash [sampleRecord] 6

/-- The sample genesis with its contents (timestamp, records, Merkle
root) altered but its stored `hash` and `index` fields kept. -/
def alteredGenesis : Block :=
  { sampleGenesis with
    timestamp := 99
    records := [sampleRecord]
    merkleRoot := [7] }

/-! ## C4: the configured batch size never reaches the ledger -/

/-- Five puts of distinct keys, as in the spec's scenario S4. -/
def c4Ops : List DBOp :=
  [DBOp.putOp [1] [11] 0 true, DBOp.putOp [2] [12] 0 true,
   DBOp.putOp [3] [13] 0 true, DBOp.putOp [4] [14] 0 true,
   DBOp.putOp [5] [15] 0 true]

/-! ## C3: vote counting -/

/-- A three-node cluster (this node plus two peers). -/
def c3Config : ClusterConfig :=
  { nodeId := 0, peers := [1, 2] }

/-- A candidate in term 1 that has voted for itself. -/
def c3Candidate : ConsensusState :=
  { state := .candidate, currentTerm := 1, votedFor := some 0,
    leaderId := none, lastHeartbeat := 0 }

/-! ## C2: transaction commit and the storage engine -/

/-- The full single-transaction commit scenario against a fresh engine:
begin, buffer one `Put` in the write set, then the single-node
`commit_transaction` path (prepare, commit).  Returns the final manager
and engine states; `none` would mean some step errored. -/
def c2Scenario (cfg : BlockDBConfig) (k v : List Nat) : Option (TMState × DBState) :=
  let db := initState cfg 0
  let tm0 := tmBegin tmNew 1 0 30
  match tmExecute tm0 1 (.putTx k v) 1 with
  | .error _ => none
  | .ok (tm1, _) =>
    match singleNodeCommit tm1 db 1 2 with
    | .error _ => none
    | .ok (tm2, db') => some (tm2, db')

/-! ## C8: sequence numbers across a history -/

/-- The maximum sequence number of a record list, as the WAL replay loop
computes it (`max` folded from 0). -/
def walMax (rs : List Record) : Nat :=
  rs.foldl (fun m r => max m r.sequenceNumber) 0

/-- The record `put` builds once the guard has passed. -/
def putRecord (s : DBState) (k v : List Nat) (now : Nat) : Record :=
  ⟨k, v, now, s.seqCounter + 1, recordHash k v now (s.seqCounter + 1)⟩

/-- A concrete two-record MemTable. -/
def c9Mt : MemTable :=
  mtInsert ⟨[30], [31], 4, 2, recordHash [30] [31] 4 2⟩ (mtInsert sampleRecord mtNew)

/-! ## C1: append-only across histories

The invariant plumbing below establishes the side conditions under which
every SSTable the engine writes reads back losslessly (the `u32` frame
header and `u64` field widths): keys, values and timestamps of realistic
width, and histories of at most 2^16 operations. -/

/-- Realistic operation widths: put keys and values of at most 2^16
bytes, wall-clock values below 2^64.  (A put whose bincoded record
exceeded the `u32` frame header would genuinely corrupt an SSTable.) -/
def OpSmall : DBOp → Prop
  | .putOp k v now _ => k.length ≤ 2 ^ 16 ∧ v.length ≤ 2 ^ 16 ∧ now < 2 ^ 64
  | _ => True

instance (op : DBOp) : Decidable (OpSmall op) := by
  unfold OpSmall
  cases op <;> infer_instance

/-- WAL replay into a fresh MemTable, as `recover_from_wal` performs it. -/
def replayMT (rs : List Record) : MemTable :=
  rs.foldl (fun mt r => mtInsert r mt) []

/-- The inductive invariant for storage histories: well-formed small
records everywhere, the MemTable no larger than the WAL, budget `n` of
further operations fitting the 2^16 history bound, the counter
dominating the WAL's maximum sequence number, and the MemTable/SSTable
read view agreeing with a replay of the WAL (which is what a crash
restores). -/
def GoodState (n : Nat) (s : DBState) : Prop :=
  (∀ p ∈ s.memtable, p.1 = p.2.key ∧ FrameOk p.2) ∧
  (∀ r ∈ s.walRecords, FrameOk r) ∧
  s.memtable.length ≤ s.walRecords.length ∧
  s.walRecords.length + n ≤ 2 ^ 16 ∧
  s.seqCounter + n ≤ 2 ^ 16 ∧
  walMax s.walRecords ≤ s.seqCounter ∧
  (∀ k, dbGetRecord s k = mtGet (replayMT s.walRecords) k)

/-- The state `put` reaches after the WAL append and MemTable insert,
before the size-triggered flush and the ledger enqueue. -/
def putMidState (s : DBState) (k v : List Nat) (now : Nat) : DBState :=
  { s with
    seqCounter := s.seqCounter + 1
    walRecords := s.walRecords ++ [putRecord s k v now]
    memtable := mtInsert (putRecord s k v now) s.memtable }

/-! ## Theorems -/

theorem sha256_injective : Function.Injective sha256 := by
  intro a b h
  simpa [sha256] using h

theorem be32_length (n : Nat) : (be32 n).length = 4 := by
  simp [be32]

theorem be64_length (n : Nat) : (be64 n).length = 8 := by
  simp [be64]

set_option maxHeartbeats 1600000 in
theorem deBE4_be32 (n : Nat) : deBE4 (be32 n) = n % 2 ^ 32 := by
  simp only [be32, deBE4, List.foldl]
  omega

set_option maxHeartbeats 1600000 in
theorem deBE8_be64 (n : Nat) (h : n < 2 ^ 64) : deBE8 (be64 n) = n := by
  simp only [be64, deBE8, List.foldl]
  omega

theorem le64_length (n : Nat) : (le64 n).length = 8 := by
  simp [le64]

set_option maxHeartbeats 1600000 in
theorem deLE8_le64 (n : Nat) (h : n < 2 ^ 64) : deLE8 (le64 n) = n := by
  simp only [le64, deLE8, List.foldr]
  omega

theorem readN_append {xs : List Nat} {n : Nat} (rest : List Nat)
    (h : xs.length = n) : readN n (xs ++ rest) = some (xs, rest) := by
  subst h
  simp [readN, List.take_left, List.drop_left]

theorem parseVec_append (v rest : List Nat) (h : v.length < 2 ^ 64) :
    parseVec (serVec v ++ rest) = some (v, rest) := by
  simp only [parseVec, serVec, List.append_assoc,
    readN_append (v ++ rest) (le64_length v.length), deLE8_le64 v.length h]
  exact readN_append rest rfl

theorem parseU64_append (n : Nat) (rest : List Nat) (h : n < 2 ^ 64) :
    parseU64 (le64 n ++ rest) = some (n, rest) := by
  simp only [parseU64, readN_append rest (le64_length n), deLE8_le64 n h]

/-- bincode round-trip: decoding an encoded record (with any trailing
bytes) returns the record. -/
theorem deserRecord_serRecord (r : Record) (rest : List Nat) (h : RecordBounded r) :
    deserRecord (serRecord r ++ rest) = some r := by
  obtain ⟨h1, h2, h3, h4, h5⟩ := h
  simp only [serRecord, deserRecord, List.append_assoc,
    parseVec_append _ _ h1, parseVec_append _ _ h2, parseU64_append _ _ h3,
    parseU64_append _ _ h4, parseVec_append _ _ h5]

theorem walRecoverAux_fuel (fuel₁ : Nat) :
    ∀ fuel₂ bs, bs.length ≤ fuel₁ → bs.length ≤ fuel₂ →
      walRecoverAux fuel₁ bs = walRecoverAux fuel₂ bs := by
  induction fuel₁ with
  | zero =>
    intro fuel₂ bs h1 _
    have hbs : bs = [] := List.length_eq_zero.mp (Nat.le_zero.mp h1)
    subst hbs
    cases fuel₂ <;> simp [walRecoverAux]
  | succ f ih =>
    intro fuel₂ bs h1 h2
    match fuel₂, bs with
    | 0, bs =>
      have hbs : bs = [] := List.length_eq_zero.mp (Nat.le_zero.mp h2)
      subst hbs
      simp [walRecoverAux]
    | f₂ + 1, bs =>
      simp only [walRecoverAux, List.length_drop, List.drop_drop]
      by_cases hlen : bs.length < 4
      · simp [hlen]
      · simp only [hlen, if_false]
        by_cases hshort : bs.length - 4 < deBE4 (bs.take 4)
        · simp [hshort]
        · simp only [hshort, if_false]
          have hrec : walRecoverAux f (bs.drop (4 + deBE4 (bs.take 4))) =
              walRecoverAux f₂ (bs.drop (4 + deBE4 (bs.take 4))) := by
            apply ih
            · simp only [List.length_drop]
              omega
            · simp only [List.length_drop]
              omega
          rw [hrec]

/-- One-step unfolding of `walRecover`, free of the fuel device. -/
theorem walRecover_eq (bs : List Nat) :
    walRecover bs =
      if bs.length < 4 then .ok []
      else if (bs.drop 4).length < deBE4 (bs.take 4) then .error .io
      else
        match deserRecord ((bs.drop 4).take (deBE4 (bs.take 4))) with
        | none => .error .serialization
        | some r =>
          match walRecover ((bs.drop 4).drop (deBE4 (bs.take 4))) with
          | .error e => .error e
          | .ok rs => .ok (r :: rs) := by
  unfold walRecover
  cases hl : bs.length with
  | zero =>
    norm_num [walRecoverAux]
  | succ n =>
    simp only [walRecoverAux, List.length_drop, List.drop_drop, hl]
    by_cases h4 : n + 1 < 4
    · simp [h4]
    · simp only [h4, if_false]
      by_cases hshort : n + 1 - 4 < deBE4 (bs.take 4)
      · have hshort' : n - 3 < deBE4 (bs.take 4) := by omega
        simp [hshort, hshort']
      · have hshort' : ¬(n - 3 < deBE4 (bs.take 4)) := by omega
        simp only [hshort, hshort', if_false]
        have hfuel : walRecoverAux n (bs.drop (4 + deBE4 (bs.take 4))) =
            walRecoverAux (n + 1 - (4 + deBE4 (bs.take 4)))
              (bs.drop (4 + deBE4 (bs.take 4))) := by
          apply walRecoverAux_fuel
          · simp only [List.length_drop, hl]
            omega
          · simp only [List.length_drop, hl]
            omega
        rw [hfuel]

theorem walRecover_short (bs : List Nat) (h : bs.length < 4) :
    walRecover bs = .ok [] := by
  rw [walRecover_eq]
  simp [h]

theorem walRecover_frame (r : Record) (hr : FrameOk r) (t : List Nat) :
    walRecover (walFrame r ++ t) =
      match walRecover t with
      | .ok rs => .ok (r :: rs)
      | .error e => .error e := by
  obtain ⟨hb, hsz⟩ := hr
  rw [walRecover_eq]
  simp only [walFrame, List.append_assoc]
  rw [List.take_left' (be32_length _), List.drop_left' (be32_length _)]
  simp only [deBE4_be32, Nat.mod_eq_of_lt hsz]
  have hnot4 : ¬((be32 (serRecord r).length ++ (serRecord r ++ t)).length < 4) := by
    simp [be32]
  have hnotshort : ¬((serRecord r ++ t).length < (serRecord r).length) := by
    simp [List.length_append]
  simp only [hnot4, if_false, hnotshort, if_false]
  rw [List.take_left' rfl, List.drop_left' rfl]
  have hdeser : deserRecord (serRecord r) = some r := by
    have := deserRecord_serRecord r [] hb
    simpa using this
  rw [hdeser]
  cases walRecover t <;> rfl

theorem walRecover_append_frames (rs : List Record) (hb : ∀ r ∈ rs, FrameOk r)
    (suffix : List Nat) :
    walRecover (walFrames rs ++ suffix) =
      match walRecover suffix with
      | .ok out => .ok (rs ++ out)
      | .error e => .error e := by
  induction rs with
  | nil =>
    simp only [walFrames, List.map_nil, List.flatten_nil, List.nil_append]
    cases walRecover suffix <;> simp
  | cons r rs ih =>
    have hfr : FrameOk r := hb r (List.mem_cons_self r rs)
    have hbs : ∀ x ∈ rs, FrameOk x := fun x hx => hb x (List.mem_cons_of_mem r hx)
    have hflat : walFrames (r :: rs) = walFrame r ++ walFrames rs := by
      simp [walFrames]
    rw [hflat, List.append_assoc, walRecover_frame r hfr, ih hbs]
    cases walRecover suffix <;> simp

theorem walRecover_truncatedBody (m : Nat) (hm : m < 2 ^ 32) (body : List Nat)
    (hshort : body.length < m) :
    walRecover (be32 m ++ body) = .error .io := by
  rw [walRecover_eq]
  rw [List.take_left' (be32_length m), List.drop_left' (be32_length m)]
  have hnot4 : ¬((be32 m ++ body).length < 4) := by
    simp [be32]
  have hm' : deBE4 (be32 m) = m := by
    rw [deBE4_be32]
    exact Nat.mod_eq_of_lt hm
  rw [if_neg hnot4, hm', if_pos hshort]

theorem walRecover_badPayload (p : List Nat) (hp : deserRecord p = none)
    (hpsz : p.length < 2 ^ 32) (t : List Nat) :
    walRecover (be32 p.length ++ p ++ t) = .error .serialization := by
  rw [walRecover_eq]
  simp only [List.append_assoc]
  rw [List.take_left' (be32_length _), List.drop_left' (be32_length _)]
  have hnot4 : ¬((be32 p.length ++ (p ++ t)).length < 4) := by
    simp [be32]
  have hnotshort : ¬((p ++ t).length < p.length) := by
    simp [List.length_append]
  have hm' : deBE4 (be32 p.length) = p.length := by
    rw [deBE4_be32]
    exact Nat.mod_eq_of_lt hpsz
  rw [if_neg hnot4, hm', if_neg hnotshort, List.take_left' rfl, hp]

theorem lexLt_irrefl (a : List Nat) : lexLt a a = false := by
  induction a with
  | nil => rfl
  | cons x xs ih => simp [lexLt, ih]

theorem mtGet_mtInsert_self (r : Record) (mt : MemTable) :
    mtGet (mtInsert r mt) r.key = some r := by
  induction mt with
  | nil => simp [mtInsert, mtGet, alookup]
  | cons p rest ih =>
    obtain ⟨k, v⟩ := p
    simp only [mtInsert]
    by_cases h1 : lexLt r.key k
    · simp [h1, mtGet, alookup]
    · by_cases h2 : r.key = k
      · simp [h2, mtGet, alookup, lexLt_irrefl]
      · simp only [h1, if_false, h2, if_false]
        have hne : k ≠ r.key := fun h => h2 h.symm
        simpa [mtGet, alookup, hne] using ih

theorem mtGet_mtInsert_ne (r : Record) (mt : MemTable) (k : List Nat)
    (hk : k ≠ r.key) : mtGet (mtInsert r mt) k = mtGet mt k := by
  have hk' : r.key ≠ k := Ne.symm hk
  induction mt with
  | nil => simp [mtInsert, mtGet, alookup, hk']
  | cons p rest ih =>
    obtain ⟨k', v⟩ := p
    simp only [mtInsert]
    by_cases h1 : lexLt r.key k'
    · simp [mtGet, alookup, h1, hk']
    · by_cases h2 : r.key = k'
      · subst h2
        simp [mtGet, alookup, h1, hk']
      · simp only [h1, if_false, h2, if_false]
        by_cases h3 : k' = k
        · simp [mtGet, alookup, h3]
        · simpa [mtGet, alookup, h3] using ih

theorem le32_length (n : Nat) : (le32 n).length = 4 := by
  simp [le32]

set_option maxHeartbeats 800000 in
theorem deLE4_le32 (n : Nat) (h : n < 2 ^ 32) : deLE4 (le32 n) = n := by
  simp only [le32, deLE4, List.foldr]
  omega

theorem parseU32_append (n : Nat) (rest : List Nat) (h : n < 2 ^ 32) :
    parseU32 (le32 n ++ rest) = some (n, rest) := by
  simp only [parseU32, readN_append rest (le32_length n), deLE4_le32 n h]

theorem parseIndexPair_append (p : List Nat × IndexEntry) (rest : List Nat)
    (h : IndexEntryBounded p) :
    parseIndexPair (serVec p.1 ++ (serIndexEntry p.2 ++ rest)) = some (p, rest) := by
  obtain ⟨h1, h2, h3, h4⟩ := h
  obtain ⟨k, e⟩ := p
  simp only [parseIndexPair, serIndexEntry, List.append_assoc,
    parseVec_append _ _ h1, parseVec_append _ _ h2, parseU64_append _ _ h3,
    parseU32_append _ _ h4]

theorem parseIndexPairs_append (entries : List (List Nat × IndexEntry))
    (rest : List Nat) (h : ∀ p ∈ entries, IndexEntryBounded p) :
    parseIndexPairs entries.length
      ((entries.map fun p => serVec p.1 ++ serIndexEntry p.2).flatten ++ rest) =
      some (entries, rest) := by
  induction entries with
  | nil => simp [parseIndexPairs]
  | cons p ps ih =>
    have hp : IndexEntryBounded p := h p (List.mem_cons_self p ps)
    have hps : ∀ q ∈ ps, IndexEntryBounded q := fun q hq => h q (List.mem_cons_of_mem p hq)
    simp only [List.map_cons, List.flatten_cons, List.length_cons, parseIndexPairs,
      List.append_assoc, parseIndexPair_append p _ hp, ih hps]

theorem deserIndex_serIndex (entries : List (List Nat × IndexEntry))
    (hcount : entries.length < 2 ^ 64) (h : ∀ p ∈ entries, IndexEntryBounded p) :
    deserIndex (serIndex entries) = some entries := by
  have happ := parseIndexPairs_append entries [] h
  rw [List.append_nil] at happ
  simp only [deserIndex, serIndex, parseU64_append _ _ hcount, happ]

theorem buildData_data_length (off : Nat) (mt : MemTable) :
    (buildData off mt).1.length =
      ((mt.map fun p => 4 + (serRecord p.2).length).sum) := by
  induction mt generalizing off with
  | nil => simp [buildData]
  | cons p rest ih =>
    obtain ⟨k, r⟩ := p
    simp only [buildData, List.map_cons, List.sum_cons, List.length_append, ih]
    simp [be32]
    omega

theorem buildData_keys (off : Nat) (mt : MemTable) :
    (buildData off mt).2.map Prod.fst = mt.map Prod.fst := by
  induction mt generalizing off with
  | nil => simp [buildData]
  | cons p rest ih =>
    obtain ⟨k, r⟩ := p
    simp [buildData, ih]

/-- Reading the frame recorded for `k` out of any file whose bytes from
position `off` onward start with the data section `buildData off mt`
yields exactly the record the memtable holds for `k`. -/
theorem buildData_read (mt : MemTable)
    (hb : ∀ p ∈ mt, RecordBounded p.2 ∧ (serRecord p.2).length < 2 ^ 32) :
    ∀ (off : Nat) (pre suffix : List Nat), pre.length = off →
      ∀ k e, alookup k (buildData off mt).2 = some e →
        ∃ r, alookup k mt = some r ∧
          e.offset + 4 ≤ (pre ++ ((buildData off mt).1 ++ suffix)).length ∧
          deBE4 (((pre ++ ((buildData off mt).1 ++ suffix)).drop e.offset).take 4) =
            (serRecord r).length ∧
          e.offset + 4 + (serRecord r).length ≤
            (pre ++ ((buildData off mt).1 ++ suffix)).length ∧
          ((pre ++ ((buildData off mt).1 ++ suffix)).drop (e.offset + 4)).take
            (serRecord r).length = serRecord r := by
  induction mt with
  | nil =>
    intro off pre suffix hpre k e he
    simp [buildData, alookup] at he
  | cons p rest ih =>
    intro off pre suffix hpre k e he
    obtain ⟨k0, r0⟩ := p
    have hb0 : RecordBounded r0 ∧ (serRecord r0).length < 2 ^ 32 :=
      hb (k0, r0) (List.mem_cons_self _ _)
    have hbrest : ∀ p ∈ rest, RecordBounded p.2 ∧ (serRecord p.2).length < 2 ^ 32 :=
      fun p hp => hb p (List.mem_cons_of_mem _ hp)
    simp only [buildData, alookup] at he
    by_cases hk : k0 = k
    · subst hk
      rw [if_pos rfl] at he
      injection he with he
      subst he
      refine ⟨r0, by simp [alookup], ?_⟩
      have hfile : pre ++ ((buildData off ((k0, r0) :: rest)).1 ++ suffix) =
          pre ++ (be32 (serRecord r0).length ++
            (serRecord r0 ++ ((buildData (off + (4 + (serRecord r0).length)) rest).1 ++ suffix))) := by
        simp [buildData]
      rw [hfile]
      have hdrop : (pre ++ (be32 (serRecord r0).length ++
          (serRecord r0 ++ ((buildData (off + (4 + (serRecord r0).length)) rest).1 ++ suffix)))).drop off =
          be32 (serRecord r0).length ++
            (serRecord r0 ++ ((buildData (off + (4 + (serRecord r0).length)) rest).1 ++ suffix)) := by
        rw [← hpre]
        exact List.drop_left _ _
      have hdrop4 : (pre ++ (be32 (serRecord r0).length ++
          (serRecord r0 ++ ((buildData (off + (4 + (serRecord r0).length)) rest).1 ++ suffix)))).drop (off + 4) =
          serRecord r0 ++ ((buildData (off + (4 + (serRecord r0).length)) rest).1 ++ suffix) := by
        have : (pre ++ (be32 (serRecord r0).length ++
            (serRecord r0 ++ ((buildData (off + (4 + (serRecord r0).length)) rest).1 ++ suffix)))) =
            (pre ++ be32 (serRecord r0).length) ++
              (serRecord r0 ++ ((buildData (off + (4 + (serRecord r0).length)) rest).1 ++ suffix)) := by
          simp
        rw [this]
        have hlen : (pre ++ be32 (serRecord r0).length).length = off + 4 := by
          simp [be32, hpre]
        rw [← hlen]
        exact List.drop_left _ _
      have hlenfile : (pre ++ (be32 (serRecord r0).length ++
          (serRecord r0 ++ ((buildData (off + (4 + (serRecord r0).length)) rest).1 ++ suffix)))).length =
          off + 4 + (serRecord r0).length +
            ((buildData (off + (4 + (serRecord r0).length)) rest).1.length + suffix.length) := by
        simp [be32, hpre]
        omega
      dsimp only
      refine ⟨by omega, ?_, by omega, ?_⟩
      · rw [hdrop, List.take_left' (be32_length _), deBE4_be32,
          Nat.mod_eq_of_lt hb0.2]
      · rw [hdrop4, List.take_left' rfl]
    · simp only [hk, if_false] at he
      have hfile : pre ++ ((buildData off ((k0, r0) :: rest)).1 ++ suffix) =
          (pre ++ (be32 (serRecord r0).length ++ serRecord r0)) ++
            ((buildData (off + (4 + (serRecord r0).length)) rest).1 ++ suffix) := by
        simp [buildData]
      have hpre' : (pre ++ (be32 (serRecord r0).length ++ serRecord r0)).length =
          off + (4 + (serRecord r0).length) := by
        simp [be32, hpre]
        omega
      obtain ⟨r, hr, h1, h2, h3, h4⟩ :=
        ih hbrest (off + (4 + (serRecord r0).length))
          (pre ++ (be32 (serRecord r0).length ++ serRecord r0)) suffix hpre' k e he
      refine ⟨r, ?_, ?_⟩
      · simp [alookup, hk, hr]
      · rw [hfile]
        exact ⟨h1, h2, h3, h4⟩

theorem alookup_eq_none_iff {α : Type} (k : List Nat) (l : List (List Nat × α)) :
    alookup k l = none ↔ k ∉ l.map Prod.fst := by
  induction l with
  | nil => simp [alookup]
  | cons p rest ih =>
    obtain ⟨k', v⟩ := p
    by_cases h : k' = k
    · subst h
      simp [alookup]
    · have h' : ¬(k = k') := fun hh => h hh.symm
      simp [alookup, h, h', ih]

theorem alookup_mem {α : Type} (k : List Nat) (l : List (List Nat × α)) (v : α)
    (h : alookup k l = some v) : (k, v) ∈ l := by
  induction l with
  | nil => simp [alookup] at h
  | cons p rest ih =>
    obtain ⟨k', v'⟩ := p
    by_cases hk : k' = k
    · subst hk
      simp only [alookup, eq_self_iff_true, if_true, Option.some.injEq] at h
      subst h
      exact List.mem_cons_self _ _
    · simp only [alookup, hk, if_false] at h
      exact List.mem_cons_of_mem _ (ih h)

theorem buildData_cons_length (off : Nat) (k0 : List Nat) (r0 : Record)
    (rest : MemTable) :
    (buildData off ((k0, r0) :: rest)).1.length =
      4 + (serRecord r0).length +
        (buildData (off + (4 + (serRecord r0).length)) rest).1.length := by
  simp only [buildData, List.length_append, be32_length]
  omega

theorem buildData_entry_facts (mt : MemTable) :
    ∀ off, ∀ p ∈ (buildData off mt).2,
      p.2.key = p.1 ∧ off ≤ p.2.offset ∧
        p.2.offset + 4 ≤ off + (buildData off mt).1.length ∧ p.2.size < 2 ^ 32 := by
  induction mt with
  | nil =>
    intro off p hp
    simp [buildData] at hp
  | cons q rest ih =>
    intro off p hp
    obtain ⟨k0, r0⟩ := q
    simp only [buildData, List.mem_cons] at hp
    rcases hp with hp | hp
    · subst hp
      refine ⟨rfl, le_refl _, ?_, Nat.mod_lt _ (by norm_num)⟩
      have hlen := buildData_cons_length off k0 r0 rest
      dsimp only
      omega
    · obtain ⟨h1, h2, h3, h4⟩ := ih (off + (4 + (serRecord r0).length)) p hp
      refine ⟨h1, by omega, ?_, h4⟩
      have hlen := buildData_cons_length off k0 r0 rest
      omega

theorem sstOpen_createFromMemtable (mt : MemTable) (h : CreateBounded mt) :
    sstOpen (createFromMemtable mt).file = some (createFromMemtable mt) := by
  obtain ⟨hper, hcount, hdata, hidx⟩ := h
  set data := (buildData 0 mt).1 with hdata_def
  set index := (buildData 0 mt).2 with hindex_def
  set indexData := serIndex index with hindexData_def
  have hfile : (createFromMemtable mt).file =
      data ++ (indexData ++ (be64 data.length ++ be64 indexData.length)) := rfl
  have hlen : (createFromMemtable mt).file.length =
      data.length + indexData.length + 16 := by
    rw [hfile]
    simp [be64]
    omega
  unfold sstOpen
  rw [hlen]
  have h16 : ¬(data.length + indexData.length + 16 < 16) := by omega
  rw [if_neg h16]
  have hregroup : (createFromMemtable mt).file =
      (data ++ indexData) ++ (be64 data.length ++ be64 indexData.length) := by
    rw [hfile]
    simp
  have hdroplen : data.length + indexData.length + 16 - 16 =
      (data ++ indexData).length := by
    simp
  have hfooter : (createFromMemtable mt).file.drop
      (data.length + indexData.length + 16 - 16) =
      be64 data.length ++ be64 indexData.length := by
    rw [hdroplen, hregroup]
    exact List.drop_left _ _
  rw [hfooter]
  dsimp only
  rw [List.take_left' (be64_length _), List.drop_left' (be64_length _),
    deBE8_be64 _ hdata, deBE8_be64 _ hidx]
  have hle : data.length + indexData.length ≤ data.length + indexData.length + 16 := by
    omega
  rw [if_pos hle]
  have hslice : ((createFromMemtable mt).file.drop data.length).take indexData.length =
      indexData := by
    rw [hfile, List.drop_left' rfl]
    exact List.take_left' rfl
  rw [hslice]
  have hbounds : ∀ p ∈ index, IndexEntryBounded p := by
    intro p hp
    obtain ⟨h1, h2, h3, h4⟩ := buildData_entry_facts mt 0 p hp
    have hdl : (buildData 0 mt).1.length < 2 ^ 64 := hdata
    have hk : p.1 ∈ mt.map Prod.fst := by
      have : p.1 ∈ index.map Prod.fst := List.mem_map_of_mem _ hp
      rwa [hindex_def, buildData_keys] at this
    obtain ⟨q, hq, hqeq⟩ := List.mem_map.mp hk
    have hklen : p.1.length < 2 ^ 64 := by
      have := hper q hq
      rw [hqeq] at this
      exact this.1
    refine ⟨hklen, ?_, by omega, h4⟩
    rw [h1]
    exact hklen
  have hcount' : index.length < 2 ^ 64 := by
    have : index.length = mt.length := by
      have := buildData_keys 0 mt
      calc index.length = (index.map Prod.fst).length := by simp
        _ = (mt.map Prod.fst).length := by rw [hindex_def, this]
        _ = mt.length := by simp
    omega
  rw [deserIndex_serIndex index hcount' hbounds]
  rfl

theorem sstGet_createFromMemtable (mt : MemTable) (h : CreateBounded mt) (k : List Nat) :
    sstGet (createFromMemtable mt) k = alookup k mt := by
  obtain ⟨hper, hcount, hdata, hidx⟩ := h
  unfold sstGet
  cases hlook : alookup k (createFromMemtable mt).index with
  | none =>
    have hkeys : (createFromMemtable mt).index.map Prod.fst = mt.map Prod.fst := by
      have := buildData_keys 0 mt
      exact this
    have : k ∉ mt.map Prod.fst := by
      have hn := (alookup_eq_none_iff k (createFromMemtable mt).index).mp hlook
      rwa [hkeys] at hn
    rw [(alookup_eq_none_iff k mt).mpr this]
  | some e =>
    have hb : ∀ p ∈ mt, RecordBounded p.2 ∧ (serRecord p.2).length < 2 ^ 32 :=
      fun p hp => ⟨(hper p hp).2.1, (hper p hp).2.2⟩
    have hread := buildData_read mt hb 0 []
      (serIndex (buildData 0 mt).2 ++
        (be64 (buildData 0 mt).1.length ++ be64 (serIndex (buildData 0 mt).2).length))
      rfl k e hlook
    obtain ⟨r, hr, h1, h2, h3, h4⟩ := hread
    have hfile : (createFromMemtable mt).file =
        [] ++ ((buildData 0 mt).1 ++
          (serIndex (buildData 0 mt).2 ++
            (be64 (buildData 0 mt).1.length ++ be64 (serIndex (buildData 0 mt).2).length))) := by
      simp [createFromMemtable]
    dsimp only
    rw [hfile, if_pos h1, h2, if_pos h3, h4, hr]
    have hrb : RecordBounded r := (hb _ (alookup_mem k mt r hr)).1
    have := deserRecord_serRecord r [] hrb
    simpa using this

theorem blockAt_cons_succ (b : Block) (bs : List Block) (i : Nat) :
    blockAt (b :: bs) (i + 1) = blockAt bs i := by
  simp [blockAt]

theorem blockAt_cons_zero (b : Block) (bs : List Block) :
    blockAt (b :: bs) 0 = b := by
  simp [blockAt]

theorem verifyChainAux_iff (prev : Block) (rest : List Block) :
    verifyChainAux prev rest = true ↔
      ∀ i, i < rest.length →
        ((blockAt rest i).verifyIntegrity = true ∧
         (blockAt rest i).previousHash = (blockAt (prev :: rest) i).hash ∧
         (blockAt rest i).index = (blockAt (prev :: rest) i).index + 1) := by
  induction rest generalizing prev with
  | nil => simp [verifyChainAux]
  | cons b rest' ih =>
    simp only [verifyChainAux, Bool.and_eq_true, beq_iff_eq]
    constructor
    · rintro ⟨⟨⟨hint, hprev⟩, hidx⟩, haux⟩ i hi
      match i with
      | 0 =>
        simp only [blockAt_cons_zero]
        exact ⟨hint, hprev, hidx⟩
      | j + 1 =>
        simp only [blockAt_cons_succ]
        exact (ih b).mp haux j (by simpa using hi)
    · intro h
      have h0 := h 0 (by simp)
      simp only [blockAt_cons_zero] at h0
      refine ⟨⟨⟨h0.1, h0.2.1⟩, h0.2.2⟩, ?_⟩
      refine (ih b).mpr ?_
      intro j hj
      have := h (j + 1) (by simpa using Nat.succ_lt_succ hj)
      simpa only [blockAt_cons_succ] using this

theorem verifyChain_iff (bs : List Block) :
    verifyChain bs = true ↔
      ∀ i, 1 ≤ i → i < bs.length →
        ((blockAt bs i).verifyIntegrity = true ∧
         (blockAt bs i).previousHash = (blockAt bs (i - 1)).hash ∧
         (blockAt bs i).index = (blockAt bs (i - 1)).index + 1) := by
  cases bs with
  | nil => simp [verifyChain]
  | cons b rest =>
    rw [show verifyChain (b :: rest) = verifyChainAux b rest from rfl,
      verifyChainAux_iff]
    constructor
    · intro h i h1 hlen
      match i, h1 with
      | j + 1, _ =>
        have := h j (by simpa using hlen)
        simpa only [blockAt_cons_succ, Nat.add_sub_cancel] using this
    · intro h j hj
      have := h (j + 1) (by omega) (by simpa using Nat.succ_lt_succ hj)
      simpa only [blockAt_cons_succ, Nat.add_sub_cancel] using this

theorem index_chain_equiv (f : Nat → Nat) (n : Nat) (h0 : 1 ≤ n → f 0 = 0) :
    (∀ i, 1 ≤ i → i < n → f i = f (i - 1) + 1) ↔
      (∀ i, 1 ≤ i → i < n → f i = i) := by
  constructor
  · intro h i
    induction i with
    | zero => omega
    | succ j ihj =>
      intro _ hlt
      have hstep := h (j + 1) (by omega) hlt
      simp only [Nat.add_sub_cancel] at hstep
      match j, ihj, hstep with
      | 0, _, hstep =>
        rw [hstep, h0 (by omega)]
      | j' + 1, ihj, hstep =>
        rw [hstep, ihj (by omega) (by omega)]
  · intro h i h1 hlt
    match i, h1 with
    | j + 1, _ =>
      have hi := h (j + 1) (by omega) hlt
      simp only [Nat.add_sub_cancel]
      match j with
      | 0 => rw [hi, h0 (by omega)]
      | j' + 1 => rw [hi, h (j' + 1) (by omega) (by omega)]

theorem verifyIntegrity_iff (b : Block) :
    b.verifyIntegrity = true ↔
      (b.hash = calculateHash b ∧ b.merkleRoot = calculateMerkleRoot b.records) := by
  simp [Block.verifyIntegrity, Bool.and_eq_true, beq_iff_eq]

/-- C7: `verify_integrity()` (delegating to `verify_chain`) returns true
iff every block `Bi` with `i ≥ 1` has its stored hash equal to the hash
recomputed from its fields, its stored Merkle root equal to the root
recomputed from its records (odd levels duplicating the last hash), links
to `B(i-1)`'s stored hash, and carries index `i`; and a freshly opened or
freshly flushed database (genesis-only chain) verifies.  The index
characterization uses the hypothesis that the chain's first block carries
index 0, true of every chain this code constructs. -/
theorem c7_verify_chain_iff (bs : List Block)
    (h0 : bs ≠ [] → (blockAt bs 0).index = 0) :
    (verifyChain bs = true ↔
      ∀ i, 1 ≤ i → i < bs.length →
        ((blockAt bs i).hash = calculateHash (blockAt bs i) ∧
         (blockAt bs i).merkleRoot = calculateMerkleRoot (blockAt bs i).records ∧
         (blockAt bs i).previousHash = (blockAt bs (i - 1)).hash ∧
         (blockAt bs i).index = i)) ∧
    (∀ cfg now, verifyChain (initState cfg now).chain.blocks = true) ∧
    (∀ s now, verifyChain (flushAllStep s now).chain.blocks = true) := by
  refine ⟨?_, fun cfg now => rfl, fun s now => rfl⟩
  rw [verifyChain_iff]
  have hidx := index_chain_equiv (fun i => (blockAt bs i).index) bs.length
    (by
      intro hlen
      apply h0
      intro hnil
      rw [hnil] at hlen
      simp at hlen)
  constructor
  · intro h
    have hD : ∀ i, 1 ≤ i → i < bs.length → (blockAt bs i).index = i :=
      hidx.mp fun i h1 h2 => (h i h1 h2).2.2
    intro i h1 h2
    obtain ⟨hint, hlink, _⟩ := h i h1 h2
    obtain ⟨hh, hm⟩ := (verifyIntegrity_iff _).mp hint
    exact ⟨hh, hm, hlink, hD i h1 h2⟩
  · intro h
    have hD : ∀ i, 1 ≤ i → i < bs.length →
        (blockAt bs i).index = (blockAt bs (i - 1)).index + 1 :=
      hidx.mpr fun i h1 h2 => (h i h1 h2).2.2.2
    intro i h1 h2
    obtain ⟨hh, hm, hlink, _⟩ := h i h1 h2
    exact ⟨(verifyIntegrity_iff _).mpr ⟨hh, hm⟩, hlink, hD i h1 h2⟩

/-- Witness for C7 at a concrete two-block chain. -/
theorem c7_verify_chain_iff_witness :
    (([sampleGenesis, sampleBlock1] : List Block) ≠ [] →
      (blockAt [sampleGenesis, sampleBlock1] 0).index = 0) ∧
    ((verifyChain [sampleGenesis, sampleBlock1] = true ↔
      ∀ i, 1 ≤ i → i < ([sampleGenesis, sampleBlock1] : List Block).length →
        ((blockAt [sampleGenesis, sampleBlock1] i).hash =
            calculateHash (blockAt [sampleGenesis, sampleBlock1] i) ∧
         (blockAt [sampleGenesis, sampleBlock1] i).merkleRoot =
            calculateMerkleRoot (blockAt [sampleGenesis, sampleBlock1] i).records ∧
         (blockAt [sampleGenesis, sampleBlock1] i).previousHash =
            (blockAt [sampleGenesis, sampleBlock1] (i - 1)).hash ∧
         (blockAt [sampleGenesis, sampleBlock1] i).index = i)) ∧
    (∀ cfg now, verifyChain (initState cfg now).chain.blocks = true) ∧
    (∀ s now, verifyChain (flushAllStep s now).chain.blocks = true)) :=
  ⟨fun _ => rfl, c7_verify_chain_iff [sampleGenesis, sampleBlock1] (fun _ => rfl)⟩

/-- C10 counterexample: `verify_chain`'s result does not depend only on
the blocks with index ≥ 1 and the genesis block's stored hash field — it
also reads the genesis block's `index` field.  Altering only `B0.index`
(keeping `B0.hash` and every later block unchanged) flips the result. -/
theorem c10_counterexample :
    verifyChain [sampleGenesis, sampleBlock1] = true ∧
    verifyChain [{ sampleGenesis with index := 5 }, sampleBlock1] = false ∧
    { sampleGenesis with index := 5 }.hash = sampleGenesis.hash := by
  refine ⟨?_, ?_, rfl⟩ <;> rfl

/-- C10 (amended): `verify_chain` never validates the genesis block's own
contents: its result depends only on the blocks with index ≥ 1 and on the
genesis block's stored `hash` and `index` fields, so altering only
`B0.records`, `B0.merkle_root`, or `B0.timestamp` (keeping `B0.hash` and
`B0.index`) preserves the result, and a chain with zero blocks verifies. -/
theorem c10_genesis_not_validated (g g' : Block) (bs : List Block)
    (hh : g.hash = g'.hash) (hi : g.index = g'.index) :
    verifyChain (g :: bs) = verifyChain (g' :: bs) ∧ verifyChain [] = true := by
  refine ⟨?_, rfl⟩
  cases bs with
  | nil => rfl
  | cons b rest => simp [verifyChain, verifyChainAux, hh, hi]

/-- Witness for the amended C10: altering the genesis block's timestamp,
records and Merkle root (hash and index fields kept) preserves the
verification result of the sample chain. -/
theorem c10_genesis_not_validated_witness :
    (sampleGenesis.hash = alteredGenesis.hash ∧ sampleGenesis.index = alteredGenesis.index) ∧
    (verifyChain [sampleGenesis, sampleBlock1] =
      verifyChain [alteredGenesis, sampleBlock1] ∧
     verifyChain [] = true) :=
  ⟨⟨rfl, rfl⟩, c10_genesis_not_validated sampleGenesis alteredGenesis
    [sampleBlock1] rfl rfl⟩

/-- C4 (evaluation at the claim's failing input): `BlockChain::new` takes
only the data directory and hardcodes `batch_size = 1000`;
`config.blockchain_batch_size` is never passed down.  With
`blockchain_batch_size = 3`, five successful puts leave the chain at
genesis only with all five records still pending — not genesis plus one
sealed block of three with two pending, as the claim states. -/
theorem c4_batch_size_ignored :
    (∀ disk now, (chainNew disk now).batchSize = 1000) ∧
    (runOps c4Ops (initState ⟨1000000, 3⟩ 0)).chain.blocks.length = 1 ∧
    (runOps c4Ops (initState ⟨1000000, 3⟩ 0)).chain.pendingRecords.length = 5 ∧
    (initState ⟨1000000, 3⟩ 0).config.blockchainBatchSize = 3 := by
  refine ⟨fun disk now => ?_, ?_, ?_, rfl⟩
  · cases disk <;> rfl
  · rfl
  · rfl

/-! ## C5: WAL recovery and the trailing frame -/

/-- C5 counterexample: a WAL file holding no complete frame and one
truncated trailing frame whose truncation falls in the body (the header
announces 5 body bytes, only 2 are present).  The claim says recovery
treats this as end-of-log and returns the empty record list; the code's
`read_exact` of the body propagates `UnexpectedEof`, so `recover` returns
an I/O error. -/
theorem c5_counterexample :
    walRecover [0, 0, 0, 5, 1, 2] = .error .io := by
  rfl

/-- C5 (amended): `recover` on complete frames followed by at most one
truncated trailing frame returns exactly the complete frames' records
when the truncation falls inside the 4-byte size header (short header
read = end-of-log, silently dropped); a truncation inside the announced
body is returned as an I/O error; and a fully-read frame whose payload
fails to decode is returned as a serialization error. -/
theorem c5_wal_recover_frames (rs : List Record) (hb : ∀ r ∈ rs, FrameOk r) :
    (∀ t : List Nat, t.length < 4 → walRecover (walFrames rs ++ t) = .ok rs) ∧
    (∀ m : Nat, ∀ body : List Nat, m < 2 ^ 32 → body.length < m →
      walRecover (walFrames rs ++ (be32 m ++ body)) = .error .io) ∧
    (∀ p t' : List Nat, deserRecord p = none → p.length < 2 ^ 32 →
      walRecover (walFrames rs ++ (be32 p.length ++ p ++ t')) = .error .serialization) := by
  refine ⟨?_, ?_, ?_⟩
  · intro t ht
    rw [walRecover_append_frames rs hb t, walRecover_short t ht]
    simp
  · intro m body hm hshort
    rw [walRecover_append_frames rs hb _, walRecover_truncatedBody m hm body hshort]
  · intro p t' hp hpsz
    rw [walRecover_append_frames rs hb _, walRecover_badPayload p hp hpsz t']

/-- Witness for the amended C5 at one concrete complete frame and a
2-byte (short-header) trailer. -/
theorem c5_wal_recover_frames_witness :
    (∀ r ∈ [sampleRecord], FrameOk r) ∧
    walRecover (walFrames [sampleRecord] ++ [0, 0]) = .ok [sampleRecord] :=
  ⟨by decide, (c5_wal_recover_frames [sampleRecord] (by decide)).1 [0, 0] (by norm_num)⟩

/-! ## C6: a failed WAL append leaves MemTable and ledger untouched -/

theorem isSome_eq_false_iff {α : Type} (o : Option α) :
    o.isSome = false ↔ o = none := by
  cases o <;> simp

/-- C6: when the WAL append I/O fails during `put` (after the append-only
guard has passed), `put` surfaces the I/O error and neither the MemTable
nor the blockchain ledger's pending queue is modified: the key remains
absent and no record is enqueued.  (Only the sequence counter, which is
allocated before the append, has advanced.) -/
theorem c6_put_wal_failure (s : DBState) (k v : List Nat) (now : Nat)
    (habs : keyExists s k = false) :
    (putStep s k v now false).1 = .error .io ∧
    (putStep s k v now false).2.memtable = s.memtable ∧
    (putStep s k v now false).2.chain = s.chain ∧
    (putStep s k v now false).2.sstables = s.sstables ∧
    (putStep s k v now false).2.walRecords = s.walRecords ∧
    dbGet (putStep s k v now false).2 k = none := by
  have hgetnone : dbGetRecord s k = none := (isSome_eq_false_iff _).mp habs
  have hstep : putStep s k v now false =
      (.error .io, { s with seqCounter := s.seqCounter + 1 }) := by
    simp [putStep, habs]
  rw [hstep]
  refine ⟨rfl, rfl, rfl, rfl, rfl, ?_⟩
  show (dbGetRecord { s with seqCounter := s.seqCounter + 1 } k).map Record.value = none
  have heq : dbGetRecord { s with seqCounter := s.seqCounter + 1 } k =
      dbGetRecord s k := rfl
  rw [heq, hgetnone]
  rfl

/-- Witness for C6 on a fresh database. -/
theorem c6_put_wal_failure_witness :
    keyExists (initState ⟨100, 1000⟩ 0) [1] = false ∧
    ((putStep (initState ⟨100, 1000⟩ 0) [1] [2] 3 false).1 = .error .io ∧
     (putStep (initState ⟨100, 1000⟩ 0) [1] [2] 3 false).2.memtable =
       (initState ⟨100, 1000⟩ 0).memtable ∧
     (putStep (initState ⟨100, 1000⟩ 0) [1] [2] 3 false).2.chain =
       (initState ⟨100, 1000⟩ 0).chain ∧
     (putStep (initState ⟨100, 1000⟩ 0) [1] [2] 3 false).2.sstables =
       (initState ⟨100, 1000⟩ 0).sstables ∧
     (putStep (initState ⟨100, 1000⟩ 0) [1] [2] 3 false).2.walRecords =
       (initState ⟨100, 1000⟩ 0).walRecords ∧
     dbGet (putStep (initState ⟨100, 1000⟩ 0) [1] [2] 3 false).2 [1] = none) :=
  ⟨by decide, c6_put_wal_failure (initState ⟨100, 1000⟩ 0) [1] [2] 3 (by decide)⟩

/-- C3 (evaluation at the claim's failing input): in a three-node
cluster the majority is 2, but `handle_vote_response` hardcodes
`votes_received = 1` (its TODO), so after receiving granted vote
responses from both peers in its own term — a full majority counting its
own vote — the candidate still has not become leader.  The claim's
"majority of granted votes makes the candidate leader" direction fails;
its "a single granted vote does not suffice when N > 1" half is the part
the code does satisfy. -/
theorem c3_vote_counting_never_elects :
    majority c3Config = 2 ∧
    (handleVoteResponse c3Config c3Candidate 1 true 7).state = .candidate ∧
    (handleVoteResponse c3Config
      (handleVoteResponse c3Config c3Candidate 1 true 7) 1 true 8).state =
        .candidate := by
  refine ⟨rfl, rfl, rfl⟩

/-- C2 (evaluation at the claim's failing input): a transaction that
buffers `put([1], [2])`, prepares and commits successfully — the commit
is logged, locks are released and the transaction leaves the active table
— yet the storage engine still answers `get([1]) = none`:
`commit_transaction` never applies the write set to the storage engine
(the manager holds no storage reference; the storage read/write
integration is a TODO in the source), where the claim requires
`get(k) = Some(v)` for every pair in the write set. -/
theorem c2_commit_applies_nothing :
    (c2Scenario ⟨100, 1000⟩ [1] [2]).map (fun p => dbGet p.2 [1]) = some none ∧
    (c2Scenario ⟨100, 1000⟩ [1] [2]).map (fun p => p.1.activeTransactions) = some [] ∧
    (c2Scenario ⟨100, 1000⟩ [1] [2]).map (fun p => p.1.txLog.map TxLogEntry.kind) =
      some [.beginTx, .prepareTx, .commitTx] ∧
    (c2Scenario ⟨100, 1000⟩ [1] [2]).map (fun p => p.2) =
      some (initState ⟨100, 1000⟩ 0) := by
  refine ⟨rfl, rfl, rfl, rfl⟩

theorem walMax_append_one (rs : List Record) (r : Record) :
    walMax (rs ++ [r]) = max (walMax rs) r.sequenceNumber := by
  simp [walMax, List.foldl_append]

theorem putStep_dup (s : DBState) (k v : List Nat) (now : Nat) (wok : Bool)
    (h : keyExists s k = true) :
    putStep s k v now wok = (.error .duplicateKey, s) := by
  simp [putStep, h]

theorem putStep_walFail (s : DBState) (k v : List Nat) (now : Nat)
    (h : keyExists s k = false) :
    putStep s k v now false = (.error .io, { s with seqCounter := s.seqCounter + 1 }) := by
  simp [putStep, h]

theorem putStep_success_shape (s : DBState) (k v : List Nat) (now : Nat)
    (h : keyExists s k = false) :
    (putStep s k v now true).1 = .ok () ∧
    (putStep s k v now true).2.walRecords = s.walRecords ++ [putRecord s k v now] ∧
    (putStep s k v now true).2.seqCounter = s.seqCounter + 1 := by
  by_cases hsz : s.config.memtableSizeLimit <
      mtSize (mtInsert
        ⟨k, v, now, s.seqCounter + 1, recordHash k v now (s.seqCounter + 1)⟩
        s.memtable)
  · refine ⟨?_, ?_, ?_⟩ <;> simp [putStep, h, hsz, putRecord, flushMemtable]
  · refine ⟨?_, ?_, ?_⟩ <;> simp [putStep, h, hsz, putRecord, flushMemtable]

theorem forceFlushStep_fields (s : DBState) :
    (forceFlushStep s).walRecords = s.walRecords ∧
    (forceFlushStep s).seqCounter = s.seqCounter := by
  unfold forceFlushStep
  by_cases h : mtIsEmpty s.memtable
  · simp [h]
  · simp [h, flushMemtable]

theorem crashRestart_fields (s : DBState) (now : Nat) :
    (crashRestart s now).walRecords = s.walRecords ∧
    (crashRestart s now).seqCounter = walMax s.walRecords := by
  unfold crashRestart dbNew recoverFromWal
  by_cases hw : s.walRecords.isEmpty
  · have hnil : s.walRecords = [] := by
      cases hwr : s.walRecords
      · rfl
      · rw [hwr] at hw
        simp at hw
    rw [hnil]
    simp [walMax]
  · simp only [hw, Bool.false_eq_true, if_false]
    exact ⟨trivial, rfl⟩

theorem runTrace_strict (ops : List DBOp) :
    ∀ s, (∀ op ∈ ops, isFlushAll op = false) →
      walMax s.walRecords ≤ s.seqCounter →
      List.Pairwise (· < ·) (runTrace ops s) ∧
      ∀ x ∈ runTrace ops s, walMax s.walRecords < x := by
  induction ops with
  | nil =>
    intro s _ _
    simp [runTrace]
  | cons op rest ih =>
    intro s hnf hinv
    have hnfr : ∀ o ∈ rest, isFlushAll o = false :=
      fun o ho => hnf o (List.mem_cons_of_mem _ ho)
    show List.Pairwise (· < ·) (stepSeqs op s ++ runTrace rest (stepOp op s)) ∧
      ∀ x ∈ stepSeqs op s ++ runTrace rest (stepOp op s), walMax s.walRecords < x
    cases op with
    | putOp k v now wok =>
      by_cases hk : keyExists s k = true
      · have hstep : stepOp (DBOp.putOp k v now wok) s = s := by
          simp [stepOp, putStep_dup s k v now wok hk]
        have hseqs : stepSeqs (DBOp.putOp k v now wok) s = [] := by
          simp [stepSeqs, putStep_dup s k v now wok hk]
        rw [hstep, hseqs, List.nil_append]
        exact ih s hnfr hinv
      · have hk' : keyExists s k = false := by
          cases hkk : keyExists s k
          · rfl
          · exact absurd hkk hk
        cases wok with
        | false =>
          have hstep : stepOp (DBOp.putOp k v now false) s =
              { s with seqCounter := s.seqCounter + 1 } := by
            simp [stepOp, putStep_walFail s k v now hk']
          have hseqs : stepSeqs (DBOp.putOp k v now false) s = [] := by
            simp [stepSeqs, putStep_walFail s k v now hk']
          rw [hstep, hseqs, List.nil_append]
          exact ih _ hnfr (by simpa using Nat.le_succ_of_le hinv)
        | true =>
          obtain ⟨hres, hwal, hctr⟩ := putStep_success_shape s k v now hk'
          have hseqs : stepSeqs (DBOp.putOp k v now true) s = [s.seqCounter + 1] := by
            simp [stepSeqs, hres]
          have hwm : walMax (stepOp (DBOp.putOp k v now true) s).walRecords =
              s.seqCounter + 1 := by
            show walMax (putStep s k v now true).2.walRecords = s.seqCounter + 1
            rw [hwal, walMax_append_one]
            show max (walMax s.walRecords) (s.seqCounter + 1) = s.seqCounter + 1
            omega
          have hinv' : walMax (stepOp (DBOp.putOp k v now true) s).walRecords ≤
              (stepOp (DBOp.putOp k v now true) s).seqCounter := by
            rw [hwm]
            show s.seqCounter + 1 ≤ (putStep s k v now true).2.seqCounter
            rw [hctr]
          obtain ⟨hpair, hbig⟩ := ih _ hnfr hinv'
          rw [hwm] at hbig
          rw [hseqs]
          constructor
          · refine List.pairwise_cons.mpr ⟨?_, hpair⟩
            intro x hx
            exact hbig x hx
          · intro x hx
            rcases List.mem_cons.mp hx with hx | hx
            · omega
            · have := hbig x hx
              omega
    | forceFlushOp =>
      obtain ⟨hwal, hctr⟩ := forceFlushStep_fields s
      have hseqs : stepSeqs DBOp.forceFlushOp s = [] := rfl
      rw [hseqs, List.nil_append]
      have := ih (stepOp DBOp.forceFlushOp s) hnfr
        (by
          show walMax (forceFlushStep s).walRecords ≤ (forceFlushStep s).seqCounter
          rw [hwal, hctr]
          exact hinv)
      obtain ⟨hpair, hbig⟩ := this
      refine ⟨hpair, fun x hx => ?_⟩
      have := hbig x hx
      rw [show (stepOp DBOp.forceFlushOp s).walRecords = s.walRecords from hwal] at this
      exact this
    | flushAllOp now =>
      have := hnf (DBOp.flushAllOp now) (List.mem_cons_self _ _)
      simp [isFlushAll] at this
    | crashRestartOp now =>
      obtain ⟨hwal, hctr⟩ := crashRestart_fields s now
      have hseqs : stepSeqs (DBOp.crashRestartOp now) s = [] := rfl
      rw [hseqs, List.nil_append]
      have := ih (stepOp (DBOp.crashRestartOp now) s) hnfr
        (by
          show walMax (crashRestart s now).walRecords ≤ (crashRestart s now).seqCounter
          rw [hwal, hctr])
      obtain ⟨hpair, hbig⟩ := this
      refine ⟨hpair, fun x hx => ?_⟩
      have := hbig x hx
      rw [show (stepOp (DBOp.crashRestartOp now) s).walRecords = s.walRecords from hwal] at this
      exact this

/-- C8 counterexample: with `flush_all` among the operations — the
claim's own operation set — sequence numbers repeat.  `flush_all` zeroes
the counter and truncates the WAL, so a put before and a put after it are
both assigned sequence number 1: the assigned numbers are neither
strictly increasing nor unique across the whole history. -/
theorem c8_counterexample :
    runTrace [DBOp.putOp [1] [2] 0 true, DBOp.flushAllOp 1, DBOp.putOp [3] [4] 2 true]
      (initState ⟨1000000, 1000⟩ 0) = [1, 1] ∧
    ¬ List.Pairwise (· < ·) ([1, 1] : List Nat) ∧
    ¬ ([1, 1] : List Nat).Nodup := by
  refine ⟨rfl, by decide, by decide⟩

/-- C8 (amended): across every history of put attempts, `force_flush`,
and crash/restart with WAL recovery — but without `flush_all`, which
deliberately zeroes the counter and so restarts the numbering — the
sequence numbers assigned to successful puts are strictly increasing and
unique.  A successful put allocates `counter + 1` (incrementing before
use), and recovery sets the counter to the maximum sequence number among
replayed WAL records, which the last two conjuncts record. -/
theorem c8_seq_monotone (cfg : BlockDBConfig) (t0 : Nat) (ops : List DBOp)
    (hnf : ∀ op ∈ ops, isFlushAll op = false) :
    List.Pairwise (· < ·) (runTrace ops (initState cfg t0)) ∧
    (runTrace ops (initState cfg t0)).Nodup ∧
    (∀ s now, (crashRestart s now).seqCounter = walMax s.walRecords) ∧
    (∀ s k v now, keyExists s k = false →
      (putStep s k v now true).2.seqCounter = s.seqCounter + 1 ∧
      stepSeqs (DBOp.putOp k v now true) s = [s.seqCounter + 1]) := by
  have hinit : walMax (initState cfg t0).walRecords ≤ (initState cfg t0).seqCounter := by
    show walMax [] ≤ 0
    simp [walMax]
  obtain ⟨hpair, _⟩ := runTrace_strict ops (initState cfg t0) hnf hinit
  refine ⟨hpair, hpair.imp (fun h => Nat.ne_of_lt h), ?_, ?_⟩
  · intro s now
    exact (crashRestart_fields s now).2
  · intro s k v now h
    obtain ⟨hres, _, hctr⟩ := putStep_success_shape s k v now h
    refine ⟨hctr, ?_⟩
    simp [stepSeqs, hres]

/-- Witness for the amended C8: a put, a crash/restart, and another put
assign sequence numbers 1 and 2. -/
theorem c8_seq_monotone_witness :
    (∀ op ∈ [DBOp.putOp [1] [2] 0 true, DBOp.crashRestartOp 1, DBOp.putOp [3] [4] 2 true],
      isFlushAll op = false) ∧
    (List.Pairwise (· < ·)
      (runTrace [DBOp.putOp [1] [2] 0 true, DBOp.crashRestartOp 1, DBOp.putOp [3] [4] 2 true]
        (initState ⟨1000000, 1000⟩ 0)) ∧
     (runTrace [DBOp.putOp [1] [2] 0 true, DBOp.crashRestartOp 1, DBOp.putOp [3] [4] 2 true]
        (initState ⟨1000000, 1000⟩ 0)).Nodup ∧
     (∀ s now, (crashRestart s now).seqCounter = walMax s.walRecords) ∧
     (∀ s k v now, keyExists s k = false →
       (putStep s k v now true).2.seqCounter = s.seqCounter + 1 ∧
       stepSeqs (DBOp.putOp k v now true) s = [s.seqCounter + 1])) :=
  ⟨by decide, c8_seq_monotone ⟨1000000, 1000⟩ 0
    [DBOp.putOp [1] [2] 0 true, DBOp.crashRestartOp 1, DBOp.putOp [3] [4] 2 true]
    (by decide)⟩

/-- C9: SSTable round-trip.  Writing a MemTable with
`create_from_memtable` and reading the file back via `open` yields
exactly the input records: `open` reconstructs the written table, and on
it `get(k)` returns the MemTable's record for every key present and
`none` for every key absent.  `CreateBounded` states the field-width side
conditions (`u32` frame sizes, `u64` offsets) under which the fixed-width
encodings in the file format are lossless. -/
theorem c9_sstable_roundtrip (mt : MemTable) (h : CreateBounded mt) :
    sstOpen (createFromMemtable mt).file = some (createFromMemtable mt) ∧
    ∀ k, sstGet (createFromMemtable mt) k = mtGet mt k :=
  ⟨sstOpen_createFromMemtable mt h, fun k => sstGet_createFromMemtable mt h k⟩

set_option maxRecDepth 20000 in
/-- Witness for C9 at a concrete two-record MemTable. -/
theorem c9_sstable_roundtrip_witness :
    CreateBounded c9Mt ∧
    (sstOpen (createFromMemtable c9Mt).file = some (createFromMemtable c9Mt) ∧
     ∀ k, sstGet (createFromMemtable c9Mt) k = mtGet c9Mt k) :=
  ⟨by decide, c9_sstable_roundtrip c9Mt (by decide)⟩

theorem serRecord_length (r : Record) :
    (serRecord r).length = r.key.length + r.value.length + r.hash.length + 40 := by
  simp [serRecord, serVec, le64]
  omega

theorem recordHash_length (k v : List Nat) (t sq : Nat) :
    (recordHash k v t sq).length = k.length + v.length + 17 := by
  simp [recordHash, sha256, be64]
  omega

theorem putRecord_frameOk (k v : List Nat) (now seq : Nat)
    (hk : k.length ≤ 2 ^ 16) (hv : v.length ≤ 2 ^ 16)
    (hnow : now < 2 ^ 64) (hseq : seq < 2 ^ 64) :
    FrameOk ⟨k, v, now, seq, recordHash k v now seq⟩ := by
  have hh := recordHash_length k v now seq
  have hs := serRecord_length ⟨k, v, now, seq, recordHash k v now seq⟩
  simp only at hh hs
  refine ⟨⟨?_, ?_, hnow, hseq, ?_⟩, ?_⟩ <;> simp only [hs, hh] <;> norm_num <;> omega

theorem mtInsert_mem (r : Record) (mt : MemTable) (p : List Nat × Record)
    (h : p ∈ mtInsert r mt) : p = (r.key, r) ∨ p ∈ mt := by
  induction mt with
  | nil =>
    simp [mtInsert] at h
    left
    simp [h]
  | cons q rest ih =>
    obtain ⟨k', v'⟩ := q
    simp only [mtInsert] at h
    by_cases h1 : lexLt r.key k'
    · simp only [h1, if_true] at h
      rcases List.mem_cons.mp h with h | h
      · left
        simp [h]
      · right
        exact h
    · simp only [h1, if_false] at h
      by_cases h2 : r.key = k'
      · simp only [h2, if_true] at h
        rcases List.mem_cons.mp h with h | h
        · left
          rw [h, h2]
        · right
          exact List.mem_cons_of_mem _ h
      · simp only [h2, if_false] at h
        rcases List.mem_cons.mp h with h | h
        · right
          rw [h]
          exact List.mem_cons_self _ _
        · rcases ih h with h | h
          · left
            exact h
          · right
            exact List.mem_cons_of_mem _ h

theorem mtInsert_length_le (r : Record) (mt : MemTable) :
    (mtInsert r mt).length ≤ mt.length + 1 := by
  induction mt with
  | nil => simp [mtInsert]
  | cons q rest ih =>
    obtain ⟨k', v'⟩ := q
    simp only [mtInsert]
    by_cases h1 : lexLt r.key k'
    · simp only [h1, if_true, List.length_cons]
      omega
    · simp only [Bool.not_eq_true] at h1
      by_cases h2 : r.key = k'
      · subst h2
        simp only [h1, Bool.false_eq_true, if_false, eq_self_iff_true, if_true,
          List.length_cons]
        omega
      · rw [if_neg (by simp [h1]), if_neg h2]
        simp only [List.length_cons]
        omega

theorem replayMT_snoc (rs : List Record) (r : Record) :
    replayMT (rs ++ [r]) = mtInsert r (replayMT rs) := by
  simp [replayMT, List.foldl_append]

theorem replayMT_mem_aux (rs : List Record) :
    ∀ (acc : MemTable) (p : List Nat × Record),
      p ∈ rs.foldl (fun mt r => mtInsert r mt) acc →
        p ∈ acc ∨ ∃ r ∈ rs, p = (r.key, r) := by
  induction rs with
  | nil =>
    intro acc p hp
    left
    simpa using hp
  | cons r rest ih =>
    intro acc p hp
    simp only [List.foldl_cons] at hp
    rcases ih (mtInsert r acc) p hp with hacc | hok
    · rcases mtInsert_mem r acc p hacc with h | h
      · right
        exact ⟨r, List.mem_cons_self _ _, h⟩
      · left
        exact h
    · right
      obtain ⟨r', hr', hp'⟩ := hok
      exact ⟨r', List.mem_cons_of_mem _ hr', hp'⟩

theorem replayMT_mem (rs : List Record) (p : List Nat × Record)
    (h : p ∈ replayMT rs) : ∃ r ∈ rs, p = (r.key, r) := by
  rcases replayMT_mem_aux rs [] p h with hacc | hok
  · simp at hacc
  · exact hok

theorem replayMT_length_le (rs : List Record) :
    (replayMT rs).length ≤ rs.length := by
  suffices haux : ∀ acc : MemTable,
      (rs.foldl (fun mt r => mtInsert r mt) acc).length ≤ acc.length + rs.length by
    simpa using haux []
  induction rs with
  | nil =>
    intro acc
    simp
  | cons r rest ih =>
    intro acc
    simp only [List.foldl_cons, List.length_cons]
    calc (rest.foldl (fun mt r => mtInsert r mt) (mtInsert r acc)).length
        ≤ (mtInsert r acc).length + rest.length := ih (mtInsert r acc)
      _ ≤ acc.length + 1 + rest.length := by
          have := mtInsert_length_le r acc
          omega
      _ = acc.length + (rest.length + 1) := by omega

theorem list_sum_le (l : List Nat) (c : Nat) (h : ∀ x ∈ l, x ≤ c) :
    l.sum ≤ l.length * c := by
  induction l with
  | nil => simp
  | cons x rest ih =>
    simp only [List.sum_cons, List.length_cons]
    have hx := h x (List.mem_cons_self _ _)
    have hr := ih fun y hy => h y (List.mem_cons_of_mem _ hy)
    calc x + rest.sum ≤ c + rest.length * c := by omega
      _ = (rest.length + 1) * c := by ring

theorem serIndex_length (es : List (List Nat × IndexEntry)) :
    (serIndex es).length =
      8 + (es.map fun p => 28 + p.1.length + p.2.key.length).sum := by
  have hpt : ∀ p : List Nat × IndexEntry,
      (serVec p.1 ++ serIndexEntry p.2).length = 28 + p.1.length + p.2.key.length := by
    intro p
    simp only [serVec, serIndexEntry, List.length_append, le64_length, le32_length]
    omega
  simp only [serIndex, List.length_append, le64_length, List.length_flatten,
    List.map_map]
  congr 1
  have hmap : es.map (List.length ∘ fun p => serVec p.1 ++ serIndexEntry p.2) =
      es.map fun p => 28 + p.1.length + p.2.key.length :=
    List.map_congr_left fun p _ => hpt p
  rw [hmap]

theorem createBounded_of_small (mt : MemTable)
    (h1 : ∀ p ∈ mt, p.1 = p.2.key ∧ FrameOk p.2) (h2 : mt.length ≤ 2 ^ 16) :
    CreateBounded mt := by
  have hkey : ∀ p ∈ mt, p.1.length < 2 ^ 32 := by
    intro p hp
    obtain ⟨hpk, _, hser⟩ := h1 p hp
    have := serRecord_length p.2
    rw [hpk]
    omega
  refine ⟨?_, by omega, ?_, ?_⟩
  · intro p hp
    obtain ⟨hpk, hrb, hser⟩ := h1 p hp
    exact ⟨by have := hkey p hp; omega, hrb, hser⟩
  · rw [buildData_data_length]
    have hb : ∀ x ∈ mt.map fun p => 4 + (serRecord p.2).length, x ≤ 4 + 2 ^ 32 := by
      intro x hx
      obtain ⟨p, hp, hpx⟩ := List.mem_map.mp hx
      have := (h1 p hp).2.2
      omega
    have := list_sum_le _ _ hb
    have hlenmap : (mt.map fun p => 4 + (serRecord p.2).length).length = mt.length := by
      simp
    rw [hlenmap] at this
    have hbound : mt.length * (4 + 2 ^ 32) ≤ 2 ^ 16 * (4 + 2 ^ 32) :=
      Nat.mul_le_mul_right _ h2
    calc (mt.map fun p => 4 + (serRecord p.2).length).sum
        ≤ 2 ^ 16 * (4 + 2 ^ 32) := le_trans this hbound
      _ < 2 ^ 64 := by norm_num
  · rw [serIndex_length]
    have hkeys := buildData_keys 0 mt
    have hcount : (buildData 0 mt).2.length = mt.length := by
      have := congrArg List.length hkeys
      simpa using this
    have hb : ∀ x ∈ (buildData 0 mt).2.map fun p => 28 + p.1.length + p.2.key.length,
        x ≤ 28 + 2 ^ 32 + 2 ^ 32 := by
      intro x hx
      obtain ⟨p, hp, hpx⟩ := List.mem_map.mp hx
      obtain ⟨hek, _, _, _⟩ := buildData_entry_facts mt 0 p hp
      have hpmem : p.1 ∈ mt.map Prod.fst := by
        rw [← hkeys]
        exact List.mem_map_of_mem _ hp
      obtain ⟨q, hq, hqk⟩ := List.mem_map.mp hpmem
      have hqlen : p.1.length < 2 ^ 32 := by
        rw [← hqk]
        exact hkey q hq
      rw [hek] at hpx
      omega
    have := list_sum_le _ _ hb
    have hlenmap : ((buildData 0 mt).2.map fun p => 28 + p.1.length + p.2.key.length).length =
        mt.length := by
      simp [hcount]
    rw [hlenmap] at this
    have hbound : mt.length * (28 + 2 ^ 32 + 2 ^ 32) ≤ 2 ^ 16 * (28 + 2 ^ 32 + 2 ^ 32) :=
      Nat.mul_le_mul_right _ h2
    have hfin : (2 : Nat) ^ 16 * (28 + 2 ^ 32 + 2 ^ 32) < 2 ^ 64 - 8 := by norm_num
    omega

theorem mtGet_nil (k : List Nat) : mtGet mtNew k = none := rfl

theorem flushMemtable_dbGetRecord (s : DBState) (hcb : CreateBounded s.memtable)
    (k : List Nat) : dbGetRecord (flushMemtable s) k = dbGetRecord s k := by
  have hrev : (s.sstables ++ [createFromMemtable s.memtable]).reverse =
      createFromMemtable s.memtable :: s.sstables.reverse := by
    simp
  show (match mtGet mtNew k with
    | some r => some r
    | none => sstFind (s.sstables ++ [createFromMemtable s.memtable]).reverse k) =
    dbGetRecord s k
  rw [mtGet_nil, hrev]
  show sstFind (createFromMemtable s.memtable :: s.sstables.reverse) k = dbGetRecord s k
  show (match sstGet (createFromMemtable s.memtable) k with
    | some r => some r
    | none => sstFind s.sstables.reverse k) = dbGetRecord s k
  rw [sstGet_createFromMemtable s.memtable hcb k]
  show (match mtGet s.memtable k with
    | some r => some r
    | none => sstFind s.sstables.reverse k) = dbGetRecord s k
  rfl

theorem crashRestart_view (s : DBState) (now : Nat) :
    (crashRestart s now).memtable = replayMT s.walRecords ∧
    (crashRestart s now).sstables = [] := by
  unfold crashRestart dbNew recoverFromWal
  by_cases hw : s.walRecords.isEmpty
  · have hnil : s.walRecords = [] := by
      cases hwr : s.walRecords
      · rfl
      · rw [hwr] at hw
        simp at hw
    rw [hnil]
    simp [replayMT, mtNew]
  · simp only [hw, Bool.false_eq_true, if_false]
    refine ⟨?_, ?_⟩ <;> trivial

theorem goodState_mono (m n : Nat) (s : DBState) (h : m ≤ n)
    (hg : GoodState n s) : GoodState m s := by
  obtain ⟨g1, g2, g3, g4, g5, g6, g7⟩ := hg
  exact ⟨g1, g2, g3, by omega, by omega, g6, g7⟩

theorem dbGetRecord_chainUpdate (X : DBState) (c : BlockChain) (k : List Nat) :
    dbGetRecord { X with chain := c } k = dbGetRecord X k := rfl

theorem dbGetRecord_counterUpdate (X : DBState) (n : Nat) (k : List Nat) :
    dbGetRecord { X with seqCounter := n } k = dbGetRecord X k := rfl

theorem putStep_success_eq (s : DBState) (k v : List Nat) (now : Nat)
    (h : keyExists s k = false) :
    (putStep s k v now true).2 =
      (let s₃ := if s.config.memtableSizeLimit < mtSize (putMidState s k v now).memtable
        then flushMemtable (putMidState s k v now) else putMidState s k v now
       { s₃ with chain := addRecord s₃.chain (putRecord s k v now) now }) := by
  by_cases hsz : s.config.memtableSizeLimit <
      mtSize (mtInsert
        ⟨k, v, now, s.seqCounter + 1, recordHash k v now (s.seqCounter + 1)⟩
        s.memtable)
  · simp [putStep, h, hsz, putMidState, putRecord, flushMemtable]
  · simp [putStep, h, hsz, putMidState, putRecord, flushMemtable]

theorem dbGetRecord_putMid (s : DBState) (k v : List Nat) (now : Nat) :
    (dbGetRecord (putMidState s k v now) k = some (putRecord s k v now)) ∧
    ∀ k', k' ≠ k → dbGetRecord (putMidState s k v now) k' = dbGetRecord s k' := by
  constructor
  · show (match mtGet (mtInsert (putRecord s k v now) s.memtable) k with
      | some r => some r
      | none => sstFind s.sstables.reverse k) = some (putRecord s k v now)
    have hself := mtGet_mtInsert_self (putRecord s k v now) s.memtable
    have hkey : (putRecord s k v now).key = k := rfl
    rw [hkey] at hself
    rw [hself]
  · intro k' hk'
    show (match mtGet (mtInsert (putRecord s k v now) s.memtable) k' with
      | some r => some r
      | none => sstFind s.sstables.reverse k') = dbGetRecord s k'
    have hne : k' ≠ (putRecord s k v now).key := hk'
    rw [mtGet_mtInsert_ne _ _ _ hne]
    rfl

theorem putStep_success_get (s : DBState) (k v : List Nat) (now : Nat)
    (h : keyExists s k = false)
    (hcb : CreateBounded (putMidState s k v now).memtable) :
    dbGetRecord (putStep s k v now true).2 k = some (putRecord s k v now) ∧
    ∀ k', k' ≠ k → dbGetRecord (putStep s k v now true).2 k' = dbGetRecord s k' := by
  rw [putStep_success_eq s k v now h]
  by_cases hsz : s.config.memtableSizeLimit < mtSize (putMidState s k v now).memtable
  · simp only [hsz, if_true]
    rw [dbGetRecord_chainUpdate]
    constructor
    · rw [flushMemtable_dbGetRecord _ hcb k]
      exact (dbGetRecord_putMid s k v now).1
    · intro k' hk'
      rw [dbGetRecord_chainUpdate, flushMemtable_dbGetRecord _ hcb k']
      exact (dbGetRecord_putMid s k v now).2 k' hk'
  · simp only [hsz, if_false]
    rw [dbGetRecord_chainUpdate]
    exact ⟨(dbGetRecord_putMid s k v now).1,
      fun k' hk' => by
        rw [dbGetRecord_chainUpdate]
        exact (dbGetRecord_putMid s k v now).2 k' hk'⟩

theorem putStep_success_memtable (s : DBState) (k v : List Nat) (now : Nat)
    (h : keyExists s k = false) :
    (putStep s k v now true).2.memtable =
      (if s.config.memtableSizeLimit < mtSize (putMidState s k v now).memtable
        then mtNew else (putMidState s k v now).memtable) := by
  rw [putStep_success_eq s k v now h]
  by_cases hsz : s.config.memtableSizeLimit < mtSize (putMidState s k v now).memtable
  · simp [hsz, flushMemtable]
  · simp [hsz]

theorem putMid_createBounded (n : Nat) (s : DBState) (k v : List Nat) (now : Nat)
    (hk : k.length ≤ 2 ^ 16) (hv : v.length ≤ 2 ^ 16) (hnow : now < 2 ^ 64)
    (hn : 1 ≤ n) (hg : GoodState n s) :
    CreateBounded (putMidState s k v now).memtable ∧ FrameOk (putRecord s k v now) := by
  obtain ⟨g1, g2, g3, g4, g5, g6, g7⟩ := hg
  have hpow : (2 : Nat) ^ 16 < 2 ^ 64 := by norm_num
  have hfr : FrameOk (putRecord s k v now) :=
    putRecord_frameOk k v now (s.seqCounter + 1) hk hv hnow (by omega)
  refine ⟨?_, hfr⟩
  apply createBounded_of_small
  · intro p hp
    rcases mtInsert_mem _ _ p hp with hp | hp
    · rw [hp]
      exact ⟨rfl, hfr⟩
    · exact g1 p hp
  · show (mtInsert (putRecord s k v now) s.memtable).length ≤ 2 ^ 16
    have := mtInsert_length_le (putRecord s k v now) s.memtable
    omega

theorem putStep_success_good (n : Nat) (s : DBState) (k v : List Nat) (now : Nat)
    (h : keyExists s k = false)
    (hk : k.length ≤ 2 ^ 16) (hv : v.length ≤ 2 ^ 16) (hnow : now < 2 ^ 64)
    (hn : 1 ≤ n) (hg : GoodState n s) :
    GoodState (n - 1) (putStep s k v now true).2 := by
  obtain ⟨hcb, hfr⟩ := putMid_createBounded n s k v now hk hv hnow hn hg
  obtain ⟨g1, g2, g3, g4, g5, g6, g7⟩ := hg
  obtain ⟨hres, hwal, hctr⟩ := putStep_success_shape s k v now h
  obtain ⟨hget1, hget2⟩ := putStep_success_get s k v now h hcb
  refine ⟨?_, ?_, ?_, ?_, ?_, ?_, ?_⟩
  · rw [putStep_success_memtable s k v now h]
    by_cases hsz : s.config.memtableSizeLimit < mtSize (putMidState s k v now).memtable
    · simp [hsz, mtNew]
    · simp only [hsz, if_false]
      intro p hp
      rcases mtInsert_mem _ _ p hp with hp | hp
      · rw [hp]
        exact ⟨rfl, hfr⟩
      · exact g1 p hp
  · rw [hwal]
    intro r' hr'
    rcases List.mem_append.mp hr' with hr' | hr'
    · exact g2 r' hr'
    · rw [List.mem_singleton.mp hr']
      exact hfr
  · rw [putStep_success_memtable s k v now h, hwal]
    by_cases hsz : s.config.memtableSizeLimit < mtSize (putMidState s k v now).memtable
    · simp [hsz, mtNew]
    · simp only [hsz, if_false, List.length_append, List.length_singleton]
      show (mtInsert (putRecord s k v now) s.memtable).length ≤ s.walRecords.length + 1
      have := mtInsert_length_le (putRecord s k v now) s.memtable
      omega
  · rw [hwal]
    simp only [List.length_append, List.length_singleton]
    omega
  · rw [hctr]
    omega
  · rw [hwal, hctr, walMax_append_one]
    show max (walMax s.walRecords) (s.seqCounter + 1) ≤ s.seqCounter + 1
    omega
  · intro k₀
    rw [hwal, replayMT_snoc]
    by_cases hk₀ : k₀ = k
    · subst hk₀
      rw [hget1]
      have hkey : (putRecord s k₀ v now).key = k₀ := rfl
      have := mtGet_mtInsert_self (putRecord s k₀ v now) (replayMT s.walRecords)
      rw [hkey] at this
      rw [this]
    · rw [hget2 k₀ hk₀]
      have hne : k₀ ≠ (putRecord s k v now).key := hk₀
      rw [mtGet_mtInsert_ne _ _ _ hne]
      exact g7 k₀

theorem dbGetRecord_eq (X : DBState) (k : List Nat) :
    dbGetRecord X k =
      match mtGet X.memtable k with
      | some r => some r
      | none => sstFind X.sstables.reverse k := rfl

theorem keyExists_false_of_ne (s : DBState) (k : List Nat)
    (h : ¬keyExists s k = true) : keyExists s k = false := by
  cases hkk : keyExists s k
  · rfl
  · exact absurd hkk h

theorem goodStep (op : DBOp) (n : Nat) (s : DBState) (hop : OpSmall op)
    (hn : 1 ≤ n) (hg : GoodState n s) : GoodState (n - 1) (stepOp op s) := by
  cases op with
  | putOp k v now wok =>
    by_cases hk : keyExists s k = true
    · show GoodState (n - 1) (putStep s k v now wok).2
      rw [putStep_dup s k v now wok hk]
      exact goodState_mono _ _ _ (by omega) hg
    · have hk' := keyExists_false_of_ne s k hk
      cases wok with
      | false =>
        show GoodState (n - 1) (putStep s k v now false).2
        rw [putStep_walFail s k v now hk']
        obtain ⟨g1, g2, g3, g4, g5, g6, g7⟩ := hg
        refine ⟨g1, g2, g3, ?_, ?_, ?_, ?_⟩
        · show s.walRecords.length + (n - 1) ≤ 2 ^ 16
          omega
        · show s.seqCounter + 1 + (n - 1) ≤ 2 ^ 16
          omega
        · show walMax s.walRecords ≤ s.seqCounter + 1
          omega
        · intro k₀
          rw [dbGetRecord_counterUpdate]
          exact g7 k₀
      | true =>
        exact putStep_success_good n s k v now hk' hop.1 hop.2.1 hop.2.2 hn hg
  | forceFlushOp =>
    show GoodState (n - 1) (forceFlushStep s)
    unfold forceFlushStep
    by_cases he : mtIsEmpty s.memtable
    · simp only [he, if_true]
      exact goodState_mono _ _ _ (by omega) hg
    · simp only [he, Bool.false_eq_true, if_false]
      obtain ⟨g1, g2, g3, g4, g5, g6, g7⟩ := hg
      have hcb : CreateBounded s.memtable :=
        createBounded_of_small s.memtable g1 (by omega)
      refine ⟨?_, g2, ?_, ?_, ?_, g6, ?_⟩
      · intro p hp
        simp [flushMemtable, mtNew] at hp
      · show (mtNew : MemTable).length ≤ s.walRecords.length
        simp [mtNew]
      · show s.walRecords.length + (n - 1) ≤ 2 ^ 16
        omega
      · show s.seqCounter + (n - 1) ≤ 2 ^ 16
        omega
      · intro k₀
        rw [flushMemtable_dbGetRecord s hcb k₀]
        exact g7 k₀
  | flushAllOp now =>
    show GoodState (n - 1) (flushAllStep s now)
    obtain ⟨g1, g2, g3, g4, g5, g6, g7⟩ := hg
    refine ⟨?_, ?_, ?_, ?_, ?_, ?_, ?_⟩
    · intro p hp
      simp [flushAllStep, mtNew] at hp
    · intro r hr
      simp [flushAllStep] at hr
    · show (mtNew : MemTable).length ≤ ([] : List Record).length
      simp [mtNew]
    · show ([] : List Record).length + (n - 1) ≤ 2 ^ 16
      simp
      omega
    · show 0 + (n - 1) ≤ 2 ^ 16
      omega
    · show walMax [] ≤ 0
      simp [walMax]
    · intro k₀
      rfl
  | crashRestartOp now =>
    show GoodState (n - 1) (crashRestart s now)
    obtain ⟨hmem, hsst⟩ := crashRestart_view s now
    obtain ⟨hwal, hctr⟩ := crashRestart_fields s now
    obtain ⟨g1, g2, g3, g4, g5, g6, g7⟩ := hg
    refine ⟨?_, ?_, ?_, ?_, ?_, ?_, ?_⟩
    · intro p hp
      rw [hmem] at hp
      obtain ⟨r, hr, hp⟩ := replayMT_mem _ p hp
      rw [hp]
      exact ⟨rfl, g2 r hr⟩
    · rw [hwal]
      exact g2
    · rw [hmem, hwal]
      exact replayMT_length_le s.walRecords
    · rw [hwal]
      omega
    · rw [hctr]
      omega
    · rw [hwal, hctr]
    · intro k₀
      rw [dbGetRecord_eq, hmem, hsst, hwal]
      cases hmk : mtGet (replayMT s.walRecords) k₀ <;> simp [hmk, sstFind]

theorem stepOp_get_preserved (op : DBOp) (n : Nat) (s : DBState)
    (hop : OpSmall op) (hnf : isFlushAll op = false) (hn : 1 ≤ n)
    (hg : GoodState n s) (k : List Nat) (r : Record)
    (hget : dbGetRecord s k = some r) :
    dbGetRecord (stepOp op s) k = some r := by
  cases op with
  | putOp k' v' now wok =>
    by_cases hk : keyExists s k' = true
    · show dbGetRecord (putStep s k' v' now wok).2 k = some r
      rw [putStep_dup s k' v' now wok hk]
      exact hget
    · have hk' := keyExists_false_of_ne s k' hk
      cases wok with
      | false =>
        show dbGetRecord (putStep s k' v' now false).2 k = some r
        rw [putStep_walFail s k' v' now hk', dbGetRecord_counterUpdate]
        exact hget
      | true =>
        have hne : k ≠ k' := by
          intro heq
          rw [heq] at hget
          have : keyExists s k' = true := by
            show (dbGetRecord s k').isSome = true
            rw [hget]
            rfl
          exact hk this
        obtain ⟨hcb, _⟩ :=
          putMid_createBounded n s k' v' now hop.1 hop.2.1 hop.2.2 hn hg
        show dbGetRecord (putStep s k' v' now true).2 k = some r
        rw [(putStep_success_get s k' v' now hk' hcb).2 k hne]
        exact hget
  | forceFlushOp =>
    show dbGetRecord (forceFlushStep s) k = some r
    unfold forceFlushStep
    by_cases he : mtIsEmpty s.memtable
    · simp only [he, if_true]
      exact hget
    · simp only [he, Bool.false_eq_true, if_false]
      obtain ⟨g1, _, g3, g4, _, _, _⟩ := hg
      have hcb : CreateBounded s.memtable :=
        createBounded_of_small s.memtable g1 (by omega)
      rw [flushMemtable_dbGetRecord s hcb k]
      exact hget
  | flushAllOp now =>
    simp [isFlushAll] at hnf
  | crashRestartOp now =>
    obtain ⟨hmem, hsst⟩ := crashRestart_view s now
    obtain ⟨_, _, _, _, _, _, g7⟩ := hg
    show dbGetRecord (crashRestart s now) k = some r
    rw [dbGetRecord_eq, hmem, hsst]
    have hr : mtGet (replayMT s.walRecords) k = some r := by
      rw [← g7 k]
      exact hget
    rw [hr]

theorem runOps_good (ops : List DBOp) :
    ∀ n s, (∀ op ∈ ops, OpSmall op) → ops.length ≤ n → GoodState n s →
      GoodState (n - ops.length) (runOps ops s) := by
  induction ops with
  | nil =>
    intro n s _ _ hg
    simpa [runOps] using hg
  | cons op rest ih =>
    intro n s hsm hlen hg
    show GoodState (n - (rest.length + 1)) (runOps rest (stepOp op s))
    have hstep := goodStep op n s (hsm op (List.mem_cons_self _ _))
      (by simp at hlen; omega) hg
    have := ih (n - 1) (stepOp op s)
      (fun o ho => hsm o (List.mem_cons_of_mem _ ho))
      (by simp at hlen; omega) hstep
    have harith : n - 1 - rest.length = n - (rest.length + 1) := by omega
    rwa [harith] at this

theorem runOps_get_preserved (ops : List DBOp) :
    ∀ n s, (∀ op ∈ ops, OpSmall op) → (∀ op ∈ ops, isFlushAll op = false) →
      ops.length ≤ n → GoodState n s →
      ∀ k r, dbGetRecord s k = some r → dbGetRecord (runOps ops s) k = some r := by
  induction ops with
  | nil =>
    intro n s _ _ _ _ k r hget
    simpa [runOps] using hget
  | cons op rest ih =>
    intro n s hsm hnf hlen hg k r hget
    show dbGetRecord (runOps rest (stepOp op s)) k = some r
    have hn1 : 1 ≤ n := by simp at hlen; omega
    have hstep := goodStep op n s (hsm op (List.mem_cons_self _ _)) hn1 hg
    exact ih (n - 1) (stepOp op s)
      (fun o ho => hsm o (List.mem_cons_of_mem _ ho))
      (fun o ho => hnf o (List.mem_cons_of_mem _ ho))
      (by simp at hlen; omega) hstep k r
      (stepOp_get_preserved op n s (hsm op (List.mem_cons_self _ _))
        (hnf op (List.mem_cons_self _ _)) hn1 hg k r hget)

theorem initState_good (cfg : BlockDBConfig) (t0 : Nat) (n : Nat)
    (h : n ≤ 2 ^ 16) : GoodState n (initState cfg t0) := by
  refine ⟨?_, ?_, ?_, ?_, ?_, ?_, ?_⟩
  · intro p hp
    simp [initState, dbNew, recoverFromWal, mtNew] at hp
  · intro r hr
    simp [initState, dbNew, recoverFromWal] at hr
  · show (mtNew : MemTable).length ≤ ([] : List Record).length
    simp [mtNew]
  · show ([] : List Record).length + n ≤ 2 ^ 16
    simpa using h
  · show 0 + n ≤ 2 ^ 16
    omega
  · show walMax [] ≤ 0
    simp [walMax]
  · intro k₀
    rfl

/-- C1: append-only.  Starting from a fresh database, after a history
`ops0` and then one successful `put(k, v1)`, any later history `ops1` of
puts, forced flushes and crash/restarts (no `flush_all`, which the spec's
reachable-state invariant excludes) leaves `get(k) = Some(v1)`, and a
later `put(k, v2)` — any `v2`, any wall clock, whether or not its WAL
write would succeed — returns `DuplicateKey` and leaves the state
unchanged; the guard fires because `k` is in the MemTable or some
SSTable.  The side conditions bound keys, values and history length so
that every SSTable frame the engine writes fits its `u32` size header. -/
theorem c1_append_only (cfg : BlockDBConfig) (t0 : Nat)
    (ops0 : List DBOp) (k v1 : List Nat) (t : Nat) (ops1 : List DBOp)
    (hsmall : ∀ op ∈ ops0 ++ DBOp.putOp k v1 t true :: ops1, OpSmall op)
    (hlen : (ops0 ++ DBOp.putOp k v1 t true :: ops1).length ≤ 2 ^ 16)
    (hnf : ∀ op ∈ ops1, isFlushAll op = false)
    (hsucc : (putStep (runOps ops0 (initState cfg t0)) k v1 t true).1 = .ok ()) :
    dbGet (runOps ops1 (putStep (runOps ops0 (initState cfg t0)) k v1 t true).2) k =
      some v1 ∧
    ∀ v2 t' wok,
      putStep (runOps ops1 (putStep (runOps ops0 (initState cfg t0)) k v1 t true).2)
          k v2 t' wok =
        (.error .duplicateKey,
         runOps ops1 (putStep (runOps ops0 (initState cfg t0)) k v1 t true).2) := by
  have hsmall0 : ∀ op ∈ ops0, OpSmall op :=
    fun op ho => hsmall op (List.mem_append_left _ ho)
  have hput_small : OpSmall (DBOp.putOp k v1 t true) :=
    hsmall _ (List.mem_append_right _ (List.mem_cons_self _ _))
  have hsmall1 : ∀ op ∈ ops1, OpSmall op :=
    fun op ho => hsmall op (List.mem_append_right _ (List.mem_cons_of_mem _ ho))
  have hlen' : ops0.length + 1 + ops1.length ≤ 2 ^ 16 := by
    have := hlen
    simp [List.length_append] at this
    omega
  have hg1 : GoodState (2 ^ 16 - ops0.length) (runOps ops0 (initState cfg t0)) := by
    have := runOps_good ops0 (2 ^ 16) (initState cfg t0) hsmall0 (by omega)
      (initState_good cfg t0 (2 ^ 16) (le_refl _))
    exact this
  have hn1 : 1 ≤ 2 ^ 16 - ops0.length := by omega
  have hkfalse : keyExists (runOps ops0 (initState cfg t0)) k = false := by
    by_cases hk : keyExists (runOps ops0 (initState cfg t0)) k = true
    · rw [putStep_dup _ k v1 t true hk] at hsucc
      exact absurd hsucc (by simp)
    · exact keyExists_false_of_ne _ _ hk
  obtain ⟨hcb, _⟩ := putMid_createBounded (2 ^ 16 - ops0.length)
    (runOps ops0 (initState cfg t0)) k v1 t hput_small.1 hput_small.2.1
    hput_small.2.2 hn1 hg1
  have hget2 := (putStep_success_get (runOps ops0 (initState cfg t0)) k v1 t
    hkfalse hcb).1
  have hg2 := putStep_success_good (2 ^ 16 - ops0.length)
    (runOps ops0 (initState cfg t0)) k v1 t hkfalse hput_small.1 hput_small.2.1
    hput_small.2.2 hn1 hg1
  have hget3 := runOps_get_preserved ops1 (2 ^ 16 - ops0.length - 1)
    ((putStep (runOps ops0 (initState cfg t0)) k v1 t true).2) hsmall1 hnf
    (by omega) hg2 k _ hget2
  constructor
  · show (dbGetRecord _ k).map Record.value = some v1
    rw [hget3]
    rfl
  · intro v2 t' wok
    apply putStep_dup
    show (dbGetRecord _ k).isSome = true
    rw [hget3]
    rfl

/-- Witness for C1: a fresh database, one successful `put([1], [2])`,
then a forced flush to an SSTable; the later `put` still collides. -/
theorem c1_append_only_witness :
    (∀ op ∈ ([] : List DBOp) ++ DBOp.putOp [1] [2] 3 true :: [DBOp.forceFlushOp],
      OpSmall op) ∧
    (([] : List DBOp) ++ DBOp.putOp [1] [2] 3 true :: [DBOp.forceFlushOp]).length ≤ 2 ^ 16 ∧
    (∀ op ∈ [DBOp.forceFlushOp], isFlushAll op = false) ∧
    (putStep (runOps [] (initState ⟨1000000, 1000⟩ 0)) [1] [2] 3 true).1 = .ok () ∧
    (dbGet (runOps [DBOp.forceFlushOp]
        (putStep (runOps [] (initState ⟨1000000, 1000⟩ 0)) [1] [2] 3 true).2) [1] =
      some [2] ∧
    ∀ v2 t' wok,
      putStep (runOps [DBOp.forceFlushOp]
          (putStep (runOps [] (initState ⟨1000000, 1000⟩ 0)) [1] [2] 3 true).2)
          [1] v2 t' wok =
        (.error .duplicateKey,
         runOps [DBOp.forceFlushOp]
          (putStep (runOps [] (initState ⟨1000000, 1000⟩ 0)) [1] [2] 3 true).2)) :=
  ⟨by decide, by decide, by decide, rfl,
   c1_append_only ⟨1000000, 1000⟩ 0 [] [1] [2] 3 [DBOp.forceFlushOp]
     (by decide) (by decide) (by decide) rfl⟩

end BlockDB

